import Mathlib

/-!
# Verification of the GELF chunk reassembly engine (`src/gelf.rs`)

This file gives a shallow embedding of the chunk reassembly engine of
`sqlx_logger` (`src/gelf.rs`) and proves the specification claims about it.

Modelling conventions:

* Byte buffers (`&[u8]`, `Vec<u8>`) are `List Nat`; a buffer originating from
  the network has all elements `< 256` (stated as a hypothesis wherever it
  matters).  Rust `u8` arithmetic is modelled with `Nat`; every place where a
  `u8` operation could wrap or underflow is covered by an explicit bound
  theorem (claim C9), so on reachable states the `Nat` model and the `u8`
  semantics agree.
* `Instant` / `Duration` are modelled as `Nat` time stamps; `Instant`
  subtraction in Rust saturates at zero, matching truncated `Nat` subtraction.
  `Instant::now()` inside `on_data` becomes an explicit `now` argument.
* A Rust `&str` / `String` is represented by its underlying UTF-8 byte list;
  `data_to_str` validates the bytes and returns them unchanged, matching the
  fact that `std::str::from_utf8` / `String::from_utf8` are byte-identity on
  success.
* `anyhow::Result` errors are modelled by the inductive `GelfError`, one
  constructor per `bail!`/`context` site.
* The `HashMap<MessageID, MessageState>` is modelled as an association list
  with unique keys (`lookupMsg` / `setMsg` / `removeMsg` mirror
  `get` / `entry().or_insert` + in-place mutation / `remove`).
-/

/-- The 8-byte message identifier (`type MessageID = [u8; 8]`). -/
abbrev MessageID := List Nat

/-- `const CHUNKED_MAGIC_BYTES: &[u8] = &[0x1e, 0x0f]`. -/
def CHUNKED_MAGIC_BYTES : List Nat := [0x1e, 0x0f]

/-- `const MAX_CHUNKED_MESSAGE_DURATION: Duration = Duration::from_secs(120)`,
in seconds. -/
def MAX_CHUNKED_MESSAGE_DURATION : Nat := 120

/-- One maximal contiguous run of merged fragments (`struct MergeChunk`).
The Rust field `end` is a Lean keyword, so it is called `stop` here. -/
structure MergeChunk where
  start : Nat
  stop : Nat
  data : List Nat
deriving DecidableEq, Repr

/-- Per-message reassembly state (`struct MessageState`). -/
structure MessageState where
  first_arrived : Nat
  total_seq : Nat
  sorted_chunks : List MergeChunk
deriving DecidableEq, Repr

/-- The whole engine state (`struct GELFState`), a map from message id to
partial state, modelled as an association list with unique keys. -/
structure GELFState where
  messages : List (MessageID × MessageState)
deriving DecidableEq, Repr

/-- Error taxonomy of `on_data` (the `bail!` sites and the UTF-8 conversion
`context`), standing in for `anyhow::Error`. -/
inductive GelfError where
  | invalidHeader (len : Nat)
  | totalSeqZero
  | utf8Error
deriving DecidableEq, Repr

/-- Second byte of a UTF-8 sequence headed by a byte in `0xC2..=0xDF`, or a
plain continuation byte. -/
def utf8Cont (b : Nat) : Bool := decide (0x80 ≤ b) && decide (b ≤ 0xBF)

/-- Allowed second byte after a 3-byte leader `b` (surrogate and overlong
exclusions of `0xE0`/`0xED`). -/
def utf8Cont3 (b c1 : Nat) : Bool :=
  if b = 0xE0 then decide (0xA0 ≤ c1) && decide (c1 ≤ 0xBF)
  else if b = 0xED then decide (0x80 ≤ c1) && decide (c1 ≤ 0x9F)
  else utf8Cont c1

/-- Allowed second byte after a 4-byte leader `b` (overlong / beyond-U+10FFFF
exclusions of `0xF0`/`0xF4`). -/
def utf8Cont4 (b c1 : Nat) : Bool :=
  if b = 0xF0 then decide (0x90 ≤ c1) && decide (c1 ≤ 0xBF)
  else if b = 0xF4 then decide (0x80 ≤ c1) && decide (c1 ≤ 0x8F)
  else utf8Cont c1

/-- UTF-8 validity of a byte list, as checked by `std::str::from_utf8` /
`String::from_utf8` (RFC 3629: no surrogates, no overlong forms, max
U+10FFFF). -/
def validUtf8 : List Nat → Bool
  | [] => true
  | b :: rest =>
    if b ≤ 0x7F then validUtf8 rest
    else if 0xC2 ≤ b ∧ b ≤ 0xDF then
      match rest with
      | c1 :: rest2 => utf8Cont c1 && validUtf8 rest2
      | [] => false
    else if 0xE0 ≤ b ∧ b ≤ 0xEF then
      match rest with
      | c1 :: c2 :: rest2 => utf8Cont3 b c1 && utf8Cont c2 && validUtf8 rest2
      | _ => false
    else if 0xF0 ≤ b ∧ b ≤ 0xF4 then
      match rest with
      | c1 :: c2 :: c3 :: rest2 =>
          utf8Cont4 b c1 && utf8Cont c2 && utf8Cont c3 && validUtf8 rest2
      | _ => false
    else false

/-- `fn data_to_str(data: Cow<[u8]>) -> anyhow::Result<Option<Cow<str>>>`:
validates the bytes as UTF-8 and returns them (a `str` is its bytes). -/
def data_to_str (data : List Nat) : Except GelfError (Option (List Nat)) :=
  if validUtf8 data then .ok (some data) else .error .utf8Error

/-- `fn compare_chunk(chunk: &MergeChunk, seq: ChunkSeq) -> Ordering`. -/
def compare_chunk (chunk : MergeChunk) (seq : Nat) : Ordering :=
  if chunk.start > seq then .gt
  else if chunk.stop < seq then .lt
  else .eq

/-- `self.sorted_chunks.binary_search_by(|probe| compare_chunk(probe, seq))`.
`Sum.inl i` is Rust's `Ok(i)` (element `i` compares `Equal`), `Sum.inr i` is
`Err(i)` (the insertion point).  `slice::binary_search_by` requires the slice
to be sorted for the comparator, in which case it returns an index of an
element comparing `Equal` if there is one and otherwise the count of elements
comparing `Less`; this linear scan computes exactly that, and the call site
only ever searches sorted run lists. -/
def searchChunks : List MergeChunk → Nat → Sum Nat Nat
  | [], _ => .inr 0
  | c :: cs, seq =>
    match compare_chunk c seq with
    | .lt =>
      match searchChunks cs seq with
      | .inl i => .inl (i + 1)
      | .inr i => .inr (i + 1)
    | .eq => .inl 0
    | .gt => .inr 0

/-- `Vec::insert(index, value)` on a list (the index is always at most the
length at the call sites, as Rust's `insert` requires). -/
def insertAt (i : Nat) (a : α) : List α → List α
  | [] => [a]
  | x :: xs =>
    match i with
    | 0 => a :: x :: xs
    | j + 1 => x :: insertAt j a xs

/-- In-place mutation of the element at an index (`self.sorted_chunks.get_mut`
followed by field updates). -/
def modifyAt (i : Nat) (f : α → α) : List α → List α
  | [] => []
  | x :: xs =>
    match i with
    | 0 => f x :: xs
    | j + 1 => x :: modifyAt j f xs

/-- List indexing (`Vec` indexing via `get_mut`); `none` is out of range. -/
def getAt? : List α → Nat → Option α
  | [], _ => none
  | a :: _, 0 => some a
  | _ :: l, n + 1 => getAt? l n

/-- The run-list update performed by `try_merge` once the binary search has
returned insertion point `index` (`Err(index)` branch of the `match`): insert
a fresh singleton run, or extend the run just before the insertion point when
it is exactly adjacent. -/
def insertChunk (cs : List MergeChunk) (index seq : Nat) (data : List Nat) :
    List MergeChunk :=
  if index = 0 then
    insertAt 0 ⟨seq, seq, data⟩ cs
  else
    match getAt? cs (index - 1) with
    | some last_chunk =>
      if last_chunk.stop + 1 = seq then
        modifyAt (index - 1)
          (fun c => { c with data := c.data ++ data, stop := c.stop + 1 }) cs
      else
        insertAt index ⟨seq, seq, data⟩ cs
    | none => cs   -- unreachable: the search returns `index ≤ cs.length`, so
                   -- `index - 1` is in range (the source `unwrap`s here)

/-- `last` cursor of `are_chunks_continuous`'s loop: the `stop` of the final
run, seen from a head run `c` followed by `cs`. -/
def lastStop (c : MergeChunk) : List MergeChunk → Nat
  | [] => c.stop
  | c2 :: rest => lastStop c2 rest

/-- `fn are_chunks_continuous(&self) -> bool`: every consecutive pair of runs
`a`, `b` satisfies `b.start - a.stop <= 1` (u8 subtraction; on the sorted
states at the call site `a.stop < b.start`, so the `Nat` truncated
subtraction agrees with it — see claim C9). -/
def are_chunks_continuous : List MergeChunk → Bool
  | [] => true
  | [_] => true
  | a :: b :: rest =>
    if b.start - a.stop > 1 then false else are_chunks_continuous (b :: rest)

/-- The completion test of `try_merge`: last run ends at `total_seq - 1`,
first run starts at `0`, and the runs are continuous.  The empty case is
unreachable at the call site (the merged list is never empty; the source
`unwrap`s `first()`/`last()`). -/
def hasFullData (total : Nat) : List MergeChunk → Bool
  | [] => false
  | c :: rest =>
    decide (lastStop c rest = total - 1) && decide (c.start = 0) &&
      are_chunks_continuous (c :: rest)

/-- The concatenation loop of `try_merge`'s completion branch: every run's
buffer in order, into one owned buffer. -/
def assembled (cs : List MergeChunk) : List Nat := (cs.map MergeChunk.data).flatten

/-- `MessageState::try_merge`.  Returns the mutated state together with the
call's result. -/
def MessageState.try_merge (ms : MessageState) (seq : Nat) (data : List Nat) :
    MessageState × Except GelfError (Option (List Nat)) :=
  match searchChunks ms.sorted_chunks seq with
  | .inl _ => (ms, .ok none)   -- seq already inside a run: ignore
  | .inr index =>
    let cs := insertChunk ms.sorted_chunks index seq data
    if hasFullData ms.total_seq cs then
      -- `self.sorted_chunks.clear()` happens before the UTF-8 conversion
      ({ ms with sorted_chunks := [] }, data_to_str (assembled cs))
    else
      ({ ms with sorted_chunks := cs }, .ok none)

/-- `HashMap::get` on the association list. -/
def lookupMsg : List (MessageID × MessageState) → MessageID → Option MessageState
  | [], _ => none
  | (k, v) :: rest, id => if k = id then some v else lookupMsg rest id

/-- `entry(id)` + in-place mutation: replace the value bound to `id`, or bind
it at the end if absent. -/
def setMsg : List (MessageID × MessageState) → MessageID → MessageState →
    List (MessageID × MessageState)
  | [], id, ms => [(id, ms)]
  | (k, v) :: rest, id, ms =>
    if k = id then (id, ms) :: rest else (k, v) :: setMsg rest id ms

/-- `HashMap::remove`. -/
def removeMsg : List (MessageID × MessageState) → MessageID →
    List (MessageID × MessageState)
  | [], _ => []
  | (k, v) :: rest, id => if k = id then rest else (k, v) :: removeMsg rest id

/-- Read the byte at offset `i` (a `get_u8` after the cursor has advanced to
`i`); only ever used under a length guard that puts `i` in range. -/
def readU8 (l : List Nat) (i : Nat) : Nat := (l.drop i).headD 0

/-- `GELFState::on_data`.  `now` is the value `Instant::now()` would return
during the call. -/
def GELFState.on_data (st : GELFState) (now : Nat) (data : List Nat) :
    GELFState × Except GelfError (Option (List Nat)) :=
  if CHUNKED_MAGIC_BYTES.isPrefixOf data then
    if data.length < 12 then
      (st, .error (.invalidHeader data.length))
    else
      let id : MessageID := (data.drop 2).take 8
      let seq := readU8 data 10
      let total_seq := readU8 data 11
      let payload := data.drop 12
      if total_seq = 0 then (st, .error .totalSeqZero)
      else if total_seq = 1 then (st, data_to_str payload)
      else
        let ms := (lookupMsg st.messages id).getD
          { first_arrived := now, total_seq := total_seq, sorted_chunks := [] }
        let r := ms.try_merge seq payload
        match r.2 with
        | .ok (some s) =>
          ({ messages := removeMsg (setMsg st.messages id r.1) id }, .ok (some s))
        | other => ({ messages := setMsg st.messages id r.1 }, other)
  else
    (st, data_to_str data)

/-- `GELFState::clean_up`: retain entries with `now - first_arrived < 120`
(Rust `Instant` subtraction saturates at zero, like `Nat` subtraction). -/
def GELFState.clean_up (st : GELFState) (now : Nat) : GELFState :=
  { messages := st.messages.filter
      (fun kv => now - kv.2.first_arrived < MAX_CHUNKED_MESSAGE_DURATION) }

/-- States reachable from the empty engine through the public operations.
Ingested buffers are byte buffers (`&[u8]`), hence every element is `< 256`. -/
inductive Reachable : GELFState → Prop where
  | init : Reachable ⟨[]⟩
  | step (st : GELFState) (now : Nat) (data : List Nat)
      (hbytes : ∀ b ∈ data, b < 256) (h : Reachable st) :
      Reachable (st.on_data now data).1
  | evict (st : GELFState) (now : Nat) (h : Reachable st) :
      Reachable (st.clean_up now)

/-- A sequence number is covered by one of the runs. -/
def Covers (cs : List MergeChunk) (s : Nat) : Prop :=
  ∃ c ∈ cs, c.start ≤ s ∧ s ≤ c.stop

instance (cs : List MergeChunk) (s : Nat) : Decidable (Covers cs s) :=
  inferInstanceAs (Decidable (∃ c ∈ cs, c.start ≤ s ∧ s ≤ c.stop))

instance : DecidableEq (Except GelfError (Option (List Nat)))
  | .ok a, .ok b =>
    if h : a = b then .isTrue (h ▸ rfl)
    else .isFalse (fun hh => h (Except.ok.inj hh))
  | .ok _, .error _ => .isFalse (fun hh => Except.noConfusion hh)
  | .error _, .ok _ => .isFalse (fun hh => Except.noConfusion hh)
  | .error e, .error f =>
    if h : e = f then .isTrue (h ▸ rfl)
    else .isFalse (fun hh => h (Except.error.inj hh))

/-- Well-formedness of a run list: strictly increasing and disjoint intervals
(each run nonempty, consecutive runs separated). -/
def ChunksWF (cs : List MergeChunk) : Prop :=
  List.Chain' (fun a b => a.stop < b.start) cs ∧ ∀ c ∈ cs, c.start ≤ c.stop

/-- Every run's buffer is the concatenation, in order, of the payloads of the
sequence numbers the run covers (`f s` is the payload of fragment `s`). -/
def DataOK (f : Nat → List Nat) (cs : List MergeChunk) : Prop :=
  ∀ c ∈ cs, c.data = ((List.range (c.stop + 1 - c.start)).map
    (fun k => f (c.start + k))).flatten

/-- A well-formed chunked fragment buffer: magic marker, 8-byte id, sequence
byte, total byte, payload. -/
def mkFrag (id : MessageID) (seq total : Nat) (payload : List Nat) : List Nat :=
  0x1e :: 0x0f :: (id ++ seq :: total :: payload)

/-- Deliver a list of buffers through successive `on_data` calls, collecting
each call's result. -/
def ingestAll (st : GELFState) (now : Nat) :
    List (List Nat) → GELFState × List (Except GelfError (Option (List Nat)))
  | [] => (st, [])
  | d :: rest =>
    let r := st.on_data now d
    let r2 := ingestAll r.1 now rest
    (r2.1, r.2 :: r2.2)

example : validUtf8 [104, 105] = true := by decide
example : validUtf8 [0xFF] = false := by decide
example : validUtf8 [0xE2, 0x82, 0xAC] = true := by decide
example : validUtf8 [0xED, 0xA0, 0x80] = false := by decide

/-! ## Basic list lemmas for the custom index operations -/

theorem insertAt_append_length (A B : List α) (a : α) :
    insertAt A.length a (A ++ B) = A ++ a :: B := by
  induction A with
  | nil => cases B <;> rfl
  | cons x xs ih => simpa [insertAt] using ih

theorem modifyAt_append_length (A B : List α) (x : α) (f : α → α) :
    modifyAt A.length f (A ++ x :: B) = A ++ f x :: B := by
  induction A with
  | nil => rfl
  | cons y ys ih => simpa [modifyAt] using ih

theorem getAt?_append_length (A B : List α) (x : α) :
    getAt? (A ++ x :: B) A.length = some x := by
  induction A with
  | nil => rfl
  | cons y ys ih => simpa [getAt?] using ih

/-! ## Well-formed run lists -/

theorem ChunksWF.tail {c : MergeChunk} {cs : List MergeChunk}
    (h : ChunksWF (c :: cs)) : ChunksWF cs :=
  ⟨h.1.tail, fun x hx => h.2 x (List.mem_cons_of_mem _ hx)⟩

/-- In a well-formed run list, the head's `stop` precedes every later run's
`start`. -/
theorem wf_head_lt {c : MergeChunk} {cs : List MergeChunk}
    (h : ChunksWF (c :: cs)) : ∀ c' ∈ cs, c.stop < c'.start := by
  induction cs generalizing c with
  | nil => intro c' hc'; cases hc'
  | cons c2 rest ih =>
    intro c' hc'
    have h12 : c.stop < c2.start := (List.chain'_cons.1 h.1).1
    rcases List.mem_cons.1 hc' with rfl | hc'
    · exact h12
    · have h2 : c2.start ≤ c2.stop := h.2 c2 (by simp)
      have := ih h.tail c' hc'
      omega

/-- Pairwise form of well-formedness: any earlier run ends strictly before any
later run starts. -/
theorem wf_pairwise {cs : List MergeChunk} (h : ChunksWF cs) :
    List.Pairwise (fun a b => a.stop < b.start) cs := by
  induction cs with
  | nil => exact List.Pairwise.nil
  | cons c rest ih => exact List.Pairwise.cons (wf_head_lt h) (ih h.tail)

/-! ## Characterizing the binary search -/

theorem search_inl_covers {cs : List MergeChunk} {seq i : Nat}
    (h : searchChunks cs seq = .inl i) : Covers cs seq := by
  induction cs generalizing i with
  | nil => simp [searchChunks] at h
  | cons c rest ih =>
    by_cases hgt : c.start > seq
    · simp [searchChunks, compare_chunk, hgt] at h
    · by_cases hlt : c.stop < seq
      · simp only [searchChunks, compare_chunk, if_pos, if_neg hgt, if_pos hlt] at h
        rcases hs : searchChunks rest seq with j | j <;> rw [hs] at h
        · rcases ih hs with ⟨c', hc', hle⟩
          exact ⟨c', List.mem_cons_of_mem _ hc', hle⟩
        · simp at h
      · exact ⟨c, by simp, by omega⟩

/-- On a well-formed run list that does not cover `seq`, the search yields the
split into the runs entirely before `seq` and the runs entirely after it. -/
theorem search_split {cs : List MergeChunk} {seq : Nat}
    (hwf : ChunksWF cs) (hnc : ¬ Covers cs seq) :
    ∃ A B, cs = A ++ B ∧ searchChunks cs seq = .inr A.length ∧
      (∀ c ∈ A, c.stop < seq) ∧ (∀ c ∈ B, seq < c.start) := by
  induction cs with
  | nil => exact ⟨[], [], rfl, rfl, by simp, by simp⟩
  | cons c rest ih =>
    by_cases hgt : c.start > seq
    · refine ⟨[], c :: rest, rfl, by simp [searchChunks, compare_chunk, hgt], by simp, ?_⟩
      intro c' hc'
      rcases List.mem_cons.1 hc' with rfl | hc'
      · exact hgt
      · have := wf_head_lt hwf c' hc'
        have : c.start ≤ c.stop := hwf.2 c (by simp)
        omega
    · by_cases hlt : c.stop < seq
      · have hnc' : ¬ Covers rest seq := by
          intro ⟨c', hc', hle⟩
          exact hnc ⟨c', List.mem_cons_of_mem _ hc', hle⟩
        rcases ih hwf.tail hnc' with ⟨A, B, hAB, hsearch, hA, hB⟩
        refine ⟨c :: A, B, by simp [hAB], ?_, ?_, hB⟩
        · simp only [searchChunks, compare_chunk, if_neg hgt, if_pos hlt, hsearch]
          rfl
        · intro c' hc'
          rcases List.mem_cons.1 hc' with rfl | hc'
          · exact hlt
          · exact hA c' hc'
      · exact absurd ⟨c, by simp, by omega⟩ hnc

/-! ## The three shapes of a merge -/

theorem insertChunk_head (cs : List MergeChunk) (seq : Nat) (d : List Nat) :
    insertChunk cs 0 seq d = ⟨seq, seq, d⟩ :: cs := by
  cases cs <;> simp [insertChunk, insertAt]

theorem insertChunk_extend (A0 : List MergeChunk) (a : MergeChunk)
    (B : List MergeChunk) (seq : Nat) (d : List Nat) (hadj : a.stop + 1 = seq) :
    insertChunk (A0 ++ a :: B) (A0.length + 1) seq d
      = A0 ++ ⟨a.start, a.stop + 1, a.data ++ d⟩ :: B := by
  simp [insertChunk, getAt?_append_length, hadj, modifyAt_append_length]

theorem insertChunk_mid (A0 : List MergeChunk) (a : MergeChunk)
    (B : List MergeChunk) (seq : Nat) (d : List Nat) (hadj : a.stop + 1 ≠ seq) :
    insertChunk (A0 ++ a :: B) (A0.length + 1) seq d
      = A0 ++ a :: ⟨seq, seq, d⟩ :: B := by
  have h := insertAt_append_length (A0 ++ [a]) B (⟨seq, seq, d⟩ : MergeChunk)
  simp only [List.append_assoc, List.singleton_append, List.length_append,
    List.length_singleton] at h
  simp [insertChunk, getAt?_append_length, hadj, h]

/-- Complete description of a non-duplicate merge: the run list splits into
the runs strictly before `seq` and strictly after it, and the update is a
head insert, an in-place extension of the last "before" run, or a middle
insert of a fresh singleton run. -/
theorem merge_decomp {cs : List MergeChunk} {seq : Nat} (d : List Nat)
    (hwf : ChunksWF cs) (hnc : ¬ Covers cs seq) :
    ∃ i A B, searchChunks cs seq = .inr i ∧ cs = A ++ B ∧
      (∀ c ∈ A, c.stop < seq) ∧ (∀ c ∈ B, seq < c.start) ∧
      ((A = [] ∧ insertChunk cs i seq d = ⟨seq, seq, d⟩ :: B) ∨
       (∃ A0 a, A = A0 ++ [a] ∧ a.stop + 1 = seq ∧
          insertChunk cs i seq d = A0 ++ ⟨a.start, a.stop + 1, a.data ++ d⟩ :: B) ∨
       (∃ A0 a, A = A0 ++ [a] ∧ a.stop + 1 ≠ seq ∧
          insertChunk cs i seq d = A0 ++ a :: ⟨seq, seq, d⟩ :: B)) := by
  rcases search_split hwf hnc with ⟨A, B, hcs, hsearch, hA, hB⟩
  subst hcs
  rcases List.eq_nil_or_concat' A with rfl | ⟨A0, a, rfl⟩
  · exact ⟨0, [], B, hsearch, rfl, by simp, hB,
      Or.inl ⟨rfl, insertChunk_head B seq d⟩⟩
  · have hlen : (A0 ++ [a]).length = A0.length + 1 := by simp
    have hform : (A0 ++ [a]) ++ B = A0 ++ a :: B := by simp
    by_cases hadj : a.stop + 1 = seq
    · refine ⟨A0.length + 1, A0 ++ [a], B, by rw [hsearch, hlen], rfl, hA, hB,
        Or.inr (Or.inl ⟨A0, a, rfl, hadj, ?_⟩)⟩
      rw [hform]; exact insertChunk_extend A0 a B seq d hadj
    · refine ⟨A0.length + 1, A0 ++ [a], B, by rw [hsearch, hlen], rfl, hA, hB,
        Or.inr (Or.inr ⟨A0, a, rfl, hadj, ?_⟩)⟩
      rw [hform]; exact insertChunk_mid A0 a B seq d hadj

/-! ## Coverage and data lemmas -/

theorem covers_append {X Y : List MergeChunk} {s : Nat} :
    Covers (X ++ Y) s ↔ Covers X s ∨ Covers Y s := by
  simp [Covers, List.mem_append, or_and_right, exists_or]

theorem covers_cons {c : MergeChunk} {cs : List MergeChunk} {s : Nat} :
    Covers (c :: cs) s ↔ (c.start ≤ s ∧ s ≤ c.stop) ∨ Covers cs s := by
  simp [Covers, List.mem_cons, or_and_right, exists_or]

theorem dataok_append {f : Nat → List Nat} {X Y : List MergeChunk} :
    DataOK f (X ++ Y) ↔ DataOK f X ∧ DataOK f Y := by
  simp [DataOK, List.mem_append, or_imp, forall_and]

theorem dataok_cons {f : Nat → List Nat} {c : MergeChunk} {cs : List MergeChunk} :
    DataOK f (c :: cs) ↔
      (c.data = ((List.range (c.stop + 1 - c.start)).map
        (fun k => f (c.start + k))).flatten) ∧ DataOK f cs := by
  simp [DataOK, List.mem_cons, or_imp, forall_and]

theorem dataok_singleton_run {f : Nat → List Nat} {seq : Nat} {d : List Nat}
    (h : d = f seq) :
    (⟨seq, seq, d⟩ : MergeChunk).data
      = ((List.range (seq + 1 - seq)).map (fun k => f (seq + k))).flatten := by
  have h1 : seq + 1 - seq = 1 := by omega
  have h2 : List.range 1 = [0] := rfl
  simp [h1, h, h2]

theorem flatten_range_snoc (f : Nat → List Nat) (st sp : Nat) (h : st ≤ sp + 1) :
    ((List.range (sp + 2 - st)).map (fun k => f (st + k))).flatten
      = ((List.range (sp + 1 - st)).map (fun k => f (st + k))).flatten ++ f (sp + 1) := by
  have hn : sp + 2 - st = (sp + 1 - st) + 1 := by omega
  have hst : st + (sp + 1 - st) = sp + 1 := by omega
  rw [hn, List.range_succ, List.map_append, List.flatten_append]
  simp [hst]

theorem covers_nil {s : Nat} : Covers [] s ↔ False := by
  simp [Covers]

/-- A non-duplicate merge preserves well-formedness, adds exactly `seq` to the
covered set, yields a nonempty run list, preserves payload-correctness of the
run buffers, and keeps every run's `stop` within the old bound or `seq`. -/
theorem merge_props {cs : List MergeChunk} {seq i : Nat} {d : List Nat}
    (hwf : ChunksWF cs) (hnc : ¬ Covers cs seq)
    (hs : searchChunks cs seq = .inr i) :
    ChunksWF (insertChunk cs i seq d) ∧
    (∀ s, Covers (insertChunk cs i seq d) s ↔ Covers cs s ∨ s = seq) ∧
    insertChunk cs i seq d ≠ [] ∧
    (∀ f, DataOK f cs → d = f seq → DataOK f (insertChunk cs i seq d)) ∧
    (∀ N, (∀ c ∈ cs, c.stop ≤ N) → seq ≤ N →
      ∀ c ∈ insertChunk cs i seq d, c.stop ≤ N) := by
  rcases merge_decomp d hwf hnc with ⟨i', A, B, hs', hcs, hA, hB, hshape⟩
  have hi : i = i' := by rw [hs] at hs'; exact Sum.inr.inj hs'
  subst hi
  subst hcs
  rcases hshape with ⟨rfl, heq⟩ | ⟨A0, a, rfl, hadj, heq⟩ | ⟨A0, a, rfl, hadj, heq⟩
  · -- head insert: result ⟨seq, seq, d⟩ :: B
    rw [heq]
    refine ⟨⟨?_, ?_⟩, ?_, by simp, ?_, ?_⟩
    · exact List.chain'_cons'.2 ⟨fun y hy => hB y (List.mem_of_mem_head? hy), hwf.1⟩
    · intro c hc
      rcases List.mem_cons.1 hc with rfl | hc
      · exact le_refl _
      · exact hwf.2 c hc
    · intro s
      simp only [covers_cons, covers_nil, List.nil_append]
      have hx : (seq ≤ s ∧ s ≤ seq) ↔ s = seq := by omega
      tauto
    · intro f hok hd
      rw [dataok_cons]
      exact ⟨dataok_singleton_run hd, hok⟩
    · intro N hN hseq c' hc'
      rcases List.mem_cons.1 hc' with rfl | hc'
      · exact hseq
      · exact hN c' hc'
  · -- extension of the run immediately before the insertion point
    have hastop : a.stop < seq := hA a (by simp)
    have hastart : a.start ≤ a.stop := hwf.2 a (by simp)
    have hchain : List.Chain' (fun x y => x.stop < y.start) (A0 ++ a :: B) := by
      have h := hwf.1
      rwa [List.append_assoc, List.singleton_append] at h
    obtain ⟨hcA0, hcaB, hlink⟩ := List.chain'_append.1 hchain
    rw [heq]
    refine ⟨⟨?_, ?_⟩, ?_, by simp, ?_, ?_⟩
    · refine List.chain'_append.2 ⟨hcA0, ?_, ?_⟩
      · refine List.chain'_cons'.2 ⟨?_, (List.chain'_cons'.1 hcaB).2⟩
        intro y hy
        have := hB y (List.mem_of_mem_head? hy)
        show a.stop + 1 < y.start
        omega
      · intro x hx y hy
        simp only [List.head?_cons, Option.mem_def, Option.some.injEq] at hy
        subst hy
        exact hlink x hx a (by simp)
    · intro c' hc'
      rcases List.mem_append.1 hc' with hc' | hc'
      · exact hwf.2 c' (by simp [hc'])
      · rcases List.mem_cons.1 hc' with rfl | hc'
        · show a.start ≤ a.stop + 1; omega
        · exact hwf.2 c' (by simp [hc'])
    · intro s
      simp only [covers_append, covers_cons, covers_nil, or_false]
      have hx : (a.start ≤ s ∧ s ≤ a.stop + 1)
          ↔ ((a.start ≤ s ∧ s ≤ a.stop) ∨ s = seq) := by omega
      tauto
    · intro f hok hd
      rw [List.append_assoc, List.singleton_append, dataok_append, dataok_cons] at hok
      obtain ⟨hokA0, hoka, hokB⟩ := hok
      rw [dataok_append, dataok_cons]
      refine ⟨hokA0, ?_, hokB⟩
      show a.data ++ d
        = ((List.range (a.stop + 1 + 1 - a.start)).map (fun k => f (a.start + k))).flatten
      have h2 : a.stop + 1 + 1 - a.start = a.stop + 2 - a.start := by omega
      rw [h2, flatten_range_snoc f a.start a.stop (by omega), ← hoka, hd, hadj]
    · intro N hN hseq c' hc'
      rcases List.mem_append.1 hc' with hc' | hc'
      · exact hN c' (by simp [hc'])
      · rcases List.mem_cons.1 hc' with rfl | hc'
        · show a.stop + 1 ≤ N; omega
        · exact hN c' (by simp [hc'])
  · -- fresh singleton run in the middle
    have hastop : a.stop < seq := hA a (by simp)
    have hastart : a.start ≤ a.stop := hwf.2 a (by simp)
    have hchain : List.Chain' (fun x y => x.stop < y.start) (A0 ++ a :: B) := by
      have h := hwf.1
      rwa [List.append_assoc, List.singleton_append] at h
    obtain ⟨hcA0, hcaB, hlink⟩ := List.chain'_append.1 hchain
    rw [heq]
    refine ⟨⟨?_, ?_⟩, ?_, by simp, ?_, ?_⟩
    · refine List.chain'_append.2 ⟨hcA0, ?_, ?_⟩
      · refine List.chain'_cons.2 ⟨hastop, ?_⟩
        refine List.chain'_cons'.2 ⟨?_, (List.chain'_cons'.1 hcaB).2⟩
        intro y hy
        exact hB y (List.mem_of_mem_head? hy)
      · intro x hx y hy
        simp only [List.head?_cons, Option.mem_def, Option.some.injEq] at hy
        subst hy
        exact hlink x hx a (by simp)
    · intro c' hc'
      rcases List.mem_append.1 hc' with hc' | hc'
      · exact hwf.2 c' (by simp [hc'])
      · rcases List.mem_cons.1 hc' with rfl | hc'
        · exact hastart
        · rcases List.mem_cons.1 hc' with rfl | hc'
          · exact le_refl _
          · exact hwf.2 c' (by simp [hc'])
    · intro s
      simp only [covers_append, covers_cons, covers_nil, or_false]
      have hx : (seq ≤ s ∧ s ≤ seq) ↔ s = seq := by omega
      tauto
    · intro f hok hd
      rw [List.append_assoc, List.singleton_append, dataok_append, dataok_cons] at hok
      rw [dataok_append, dataok_cons, dataok_cons]
      exact ⟨hok.1, hok.2.1, dataok_singleton_run hd, hok.2.2⟩
    · intro N hN hseq c' hc'
      rcases List.mem_append.1 hc' with hc' | hc'
      · exact hN c' (by simp [hc'])
      · rcases List.mem_cons.1 hc' with rfl | hc'
        · exact hN c' (by simp)
        · rcases List.mem_cons.1 hc' with rfl | hc'
          · exact hseq
          · exact hN c' (by simp [hc'])

/-! ## The completion test -/

theorem lastStop_mem (c : MergeChunk) (cs : List MergeChunk) :
    ∃ l ∈ c :: cs, l.stop = lastStop c cs := by
  induction cs generalizing c with
  | nil => exact ⟨c, by simp, rfl⟩
  | cons c2 rest ih =>
    rcases ih c2 with ⟨l, hl, hstop⟩
    exact ⟨l, List.mem_cons_of_mem _ hl, hstop⟩

theorem stop_le_lastStop {c : MergeChunk} {cs : List MergeChunk}
    (hwf : ChunksWF (c :: cs)) : ∀ c' ∈ c :: cs, c'.stop ≤ lastStop c cs := by
  induction cs generalizing c with
  | nil => intro c' hc'; rcases List.mem_cons.1 hc' with rfl | hc'
           · exact le_refl _
           · cases hc'
  | cons c2 rest ih =>
    intro c' hc'
    rcases List.mem_cons.1 hc' with rfl | hc'
    · have h12 : c'.stop < c2.start := (List.chain'_cons.1 hwf.1).1
      have h2 : c2.start ≤ c2.stop := hwf.2 c2 (by simp)
      have := ih hwf.tail c2 (by simp)
      show c'.stop ≤ lastStop c2 rest
      omega
    · exact ih hwf.tail c' hc'

theorem hasFullData_cons {n : Nat} {c : MergeChunk} {cs : List MergeChunk} :
    hasFullData n (c :: cs) = true ↔
      lastStop c cs = n - 1 ∧ c.start = 0 ∧ are_chunks_continuous (c :: cs) = true := by
  simp [hasFullData, Bool.and_eq_true, decide_eq_true_iff, and_assoc]

theorem continuous_cons_cons {a b : MergeChunk} {rest : List MergeChunk} :
    are_chunks_continuous (a :: b :: rest)
      = if b.start - a.stop > 1 then false else are_chunks_continuous (b :: rest) := by
  rfl

/-- A sorted continuous run list covers its whole span. -/
theorem covers_span : ∀ (cs : List MergeChunk) (c : MergeChunk),
    ChunksWF (c :: cs) → are_chunks_continuous (c :: cs) = true →
    ∀ s, c.start ≤ s → s ≤ lastStop c cs → Covers (c :: cs) s := by
  intro cs
  induction cs with
  | nil => intro c _ _ s h1 h2; exact ⟨c, by simp, h1, h2⟩
  | cons c2 rest ih =>
    intro c hwf hcont s h1 h2
    have hlt : c.stop < c2.start := (List.chain'_cons.1 hwf.1).1
    have hgap : ¬ (c2.start - c.stop > 1) := by
      intro hgt
      rw [continuous_cons_cons, if_pos hgt] at hcont
      exact Bool.false_ne_true hcont
    rcases le_or_lt s c.stop with hle | hgt
    · exact ⟨c, by simp, h1, hle⟩
    · have hcont' : are_chunks_continuous (c2 :: rest) = true := by
        rwa [continuous_cons_cons, if_neg hgap] at hcont
      have h1' : c2.start ≤ s := by omega
      rcases ih c2 hwf.tail hcont' s h1' h2 with ⟨c', hc', hcc⟩
      exact ⟨c', List.mem_cons_of_mem _ hc', hcc⟩

/-- Passing the completion test means every sequence number in
`[0, total)` is covered. -/
theorem covers_of_full {n : Nat} {cs : List MergeChunk}
    (hwf : ChunksWF cs) (hfd : hasFullData n cs = true) :
    ∀ s < n, Covers cs s := by
  intro s hs
  match cs, hwf, hfd with
  | c :: rest, hwf, hfd =>
    rcases hasFullData_cons.1 hfd with ⟨hlast, hstart, hcont⟩
    exact covers_span rest c hwf hcont s (by omega) (by omega)

/-- If some covered sequence number exceeds `total - 1`, the completion test
fails (and keeps failing: coverage only grows). -/
theorem not_full_of_over {n s : Nat} {cs : List MergeChunk}
    (hwf : ChunksWF cs) (hcov : Covers cs s) (hover : n - 1 < s) :
    hasFullData n cs = false := by
  rcases hcov with ⟨c', hc', h1, h2⟩
  match cs, hwf, hc' with
  | c :: rest, hwf, hc' =>
    rw [← Bool.not_eq_true, hasFullData_cons]
    intro ⟨hlast, _, _⟩
    have := stop_le_lastStop hwf c' hc'
    omega

/-- A sorted run list covering its whole span is continuous. -/
theorem continuity_of_interval : ∀ (cs : List MergeChunk) (c : MergeChunk),
    ChunksWF (c :: cs) →
    (∀ s, c.start ≤ s → s ≤ lastStop c cs → Covers (c :: cs) s) →
    are_chunks_continuous (c :: cs) = true := by
  intro cs
  induction cs with
  | nil => intro c _ _; rfl
  | cons c2 rest ih =>
    intro c hwf hcov
    have hlt : c.stop < c2.start := (List.chain'_cons.1 hwf.1).1
    have hb1 : c.start ≤ c.stop := hwf.2 c (by simp)
    have hb2 : c2.start ≤ c2.stop := hwf.2 c2 (by simp)
    have hlast2 : c2.stop ≤ lastStop c2 rest := stop_le_lastStop hwf.tail c2 (by simp)
    have hgap : ¬ (c2.start - c.stop > 1) := by
      intro hgt
      rcases hcov (c.stop + 1) (by omega) (by show c.stop + 1 ≤ lastStop c2 rest; omega)
        with ⟨c', hc', h1, h2⟩
      rcases List.mem_cons.1 hc' with rfl | hc'
      · omega
      · rcases List.mem_cons.1 hc' with rfl | hc'
        · omega
        · have := wf_head_lt hwf.tail c' hc'
          omega
    rw [continuous_cons_cons, if_neg hgap]
    refine ih c2 hwf.tail ?_
    intro s h1 h2
    have h0 : c.start ≤ s := by omega
    rcases hcov s h0 (by show s ≤ lastStop c2 rest; omega) with ⟨c', hc', hs1, hs2⟩
    rcases List.mem_cons.1 hc' with rfl | hc'
    · omega
    · exact ⟨c', hc', hs1, hs2⟩

/-- Covering all of `[0, n)` (and nothing beyond) makes the completion test
succeed. -/
theorem full_of_covers {n : Nat} {c : MergeChunk} {cs : List MergeChunk}
    (hwf : ChunksWF (c :: cs)) (hn : 1 ≤ n)
    (hbound : ∀ s, Covers (c :: cs) s → s < n)
    (hcov : ∀ s < n, Covers (c :: cs) s) :
    hasFullData n (c :: cs) = true := by
  have hstart : c.start = 0 := by
    rcases hcov 0 (by omega) with ⟨c', hc', h1, _⟩
    rcases List.mem_cons.1 hc' with rfl | hc'
    · omega
    · have := wf_head_lt hwf c' hc'
      omega
  have hlast : lastStop c cs = n - 1 := by
    have hle : lastStop c cs ≤ n - 1 := by
      rcases lastStop_mem c cs with ⟨l, hl, hstop⟩
      have : Covers (c :: cs) l.stop := ⟨l, hl, hwf.2 l hl, le_refl _⟩
      have := hbound _ this
      omega
    have hge : n - 1 ≤ lastStop c cs := by
      rcases hcov (n - 1) (by omega) with ⟨c', hc', h1, h2⟩
      have := stop_le_lastStop hwf c' hc'
      omega
    omega
  refine hasFullData_cons.2 ⟨hlast, hstart, ?_⟩
  refine continuity_of_interval cs c hwf ?_
  intro s h1 h2
  exact hcov s (by omega)

/-! ## The assembled buffer -/

theorem flatten_range_append (f : Nat → List Nat) (a m k : Nat) :
    ((List.range m).map (fun j => f (a + j))).flatten
        ++ ((List.range k).map (fun j => f (a + m + j))).flatten
      = ((List.range (m + k)).map (fun j => f (a + j))).flatten := by
  rw [List.range_add, List.map_append, List.flatten_append, List.map_map]
  have hfun : ((fun j => f (a + j)) ∘ fun x => m + x) = fun j => f (a + m + j) := by
    funext j
    simp [Function.comp, Nat.add_assoc]
  rw [hfun]

/-- On a sorted continuous run list with correct per-run buffers, the
concatenation of all buffers is the concatenation of the payloads of the
covered span, in order. -/
theorem assembled_spec (f : Nat → List Nat) : ∀ (cs : List MergeChunk) (c : MergeChunk),
    ChunksWF (c :: cs) → are_chunks_continuous (c :: cs) = true →
    DataOK f (c :: cs) →
    assembled (c :: cs)
      = ((List.range (lastStop c cs + 1 - c.start)).map (fun k => f (c.start + k))).flatten := by
  intro cs
  induction cs with
  | nil =>
    intro c _ _ hok
    have hd := (dataok_cons.1 hok).1
    show (List.map MergeChunk.data [c]).flatten = _
    simp [lastStop, hd]
  | cons c2 rest ih =>
    intro c hwf hcont hok
    have hlt : c.stop < c2.start := (List.chain'_cons.1 hwf.1).1
    have hb1 : c.start ≤ c.stop := hwf.2 c (by simp)
    have hb2 : c2.start ≤ c2.stop := hwf.2 c2 (by simp)
    have hlast2 : c2.stop ≤ lastStop c2 rest := stop_le_lastStop hwf.tail c2 (by simp)
    have hgap : ¬ (c2.start - c.stop > 1) := by
      intro hgt
      rw [continuous_cons_cons, if_pos hgt] at hcont
      exact Bool.false_ne_true hcont
    have hadj : c2.start = c.stop + 1 := by omega
    have hcont' : are_chunks_continuous (c2 :: rest) = true := by
      rwa [continuous_cons_cons, if_neg hgap] at hcont
    have hd := (dataok_cons.1 hok).1
    have hok' := (dataok_cons.1 hok).2
    have hstep : assembled (c :: c2 :: rest) = c.data ++ assembled (c2 :: rest) := by
      simp [assembled]
    rw [hstep, ih c2 hwf.tail hcont' hok', hd]
    have hm : c.start + (c.stop + 1 - c.start) = c2.start := by omega
    have hsum : (c.stop + 1 - c.start) + (lastStop c2 rest + 1 - c2.start)
        = lastStop c2 rest + 1 - c.start := by omega
    calc ((List.range (c.stop + 1 - c.start)).map (fun k => f (c.start + k))).flatten
          ++ ((List.range (lastStop c2 rest + 1 - c2.start)).map
              (fun k => f (c2.start + k))).flatten
        = ((List.range (c.stop + 1 - c.start)).map (fun k => f (c.start + k))).flatten
          ++ ((List.range (lastStop c2 rest + 1 - c2.start)).map
              (fun k => f (c.start + (c.stop + 1 - c.start) + k))).flatten := by
          rw [hm]
      _ = ((List.range ((c.stop + 1 - c.start) + (lastStop c2 rest + 1 - c2.start))).map
            (fun k => f (c.start + k))).flatten :=
          flatten_range_append f c.start (c.stop + 1 - c.start) (lastStop c2 rest + 1 - c2.start)
      _ = ((List.range (lastStop c (c2 :: rest) + 1 - c.start)).map
            (fun k => f (c.start + k))).flatten := by rw [hsum]; rfl

/-! ## `try_merge` unfolding -/

theorem search_inl_of_covers : ∀ {cs : List MergeChunk} {seq : Nat},
    ChunksWF cs → Covers cs seq → ∃ i, searchChunks cs seq = .inl i := by
  intro cs
  induction cs with
  | nil => intro seq _ hcov; rcases hcov with ⟨c, hc, _⟩; cases hc
  | cons c rest ih =>
    intro seq hwf hcov
    by_cases hgt : c.start > seq
    · exfalso
      rcases hcov with ⟨c', hc', h1, h2⟩
      rcases List.mem_cons.1 hc' with rfl | hc'
      · omega
      · have := wf_head_lt hwf c' hc'
        have := hwf.2 c (by simp)
        omega
    · by_cases hlt : c.stop < seq
      · have hcov' : Covers rest seq := by
          rcases hcov with ⟨c', hc', h1, h2⟩
          rcases List.mem_cons.1 hc' with rfl | hc'
          · omega
          · exact ⟨c', hc', h1, h2⟩
        rcases ih hwf.tail hcov' with ⟨i, hi⟩
        exact ⟨i + 1, by simp [searchChunks, compare_chunk, hgt, hlt, hi]⟩
      · exact ⟨0, by simp [searchChunks, compare_chunk, hgt, hlt]⟩

theorem try_merge_of_inl {ms : MessageState} {seq i : Nat} {d : List Nat}
    (hs : searchChunks ms.sorted_chunks seq = .inl i) :
    ms.try_merge seq d = (ms, .ok none) := by
  unfold MessageState.try_merge
  rw [hs]

/-- A duplicate fragment is ignored: no state change, "need more data". -/
theorem try_merge_dup {ms : MessageState} {seq : Nat} {d : List Nat}
    (hwf : ChunksWF ms.sorted_chunks) (hcov : Covers ms.sorted_chunks seq) :
    ms.try_merge seq d = (ms, .ok none) := by
  rcases search_inl_of_covers hwf hcov with ⟨i, hi⟩
  exact try_merge_of_inl hi

theorem try_merge_of_inr {ms : MessageState} {seq i : Nat} {d : List Nat}
    (hs : searchChunks ms.sorted_chunks seq = .inr i) :
    ms.try_merge seq d =
      (if hasFullData ms.total_seq (insertChunk ms.sorted_chunks i seq d)
       then ({ ms with sorted_chunks := [] },
             data_to_str (assembled (insertChunk ms.sorted_chunks i seq d)))
       else ({ ms with sorted_chunks := insertChunk ms.sorted_chunks i seq d },
             .ok none)) := by
  unfold MessageState.try_merge
  rw [hs]

/-! ## Association-list (HashMap) lemmas -/

theorem lookupMsg_setMsg_self (m : List (MessageID × MessageState))
    (id : MessageID) (ms : MessageState) :
    lookupMsg (setMsg m id ms) id = some ms := by
  induction m with
  | nil => simp [setMsg, lookupMsg]
  | cons kv rest ih =>
    by_cases h : kv.1 = id
    · simp [setMsg, h, lookupMsg]
    · simp [setMsg, h, lookupMsg, ih]

theorem setMsg_lookup_eq : ∀ {m : List (MessageID × MessageState)}
    {id : MessageID} {ms : MessageState}, lookupMsg m id = some ms →
    setMsg m id ms = m := by
  intro m
  induction m with
  | nil => intro id ms h; simp [lookupMsg] at h
  | cons kv rest ih =>
    intro id ms h
    obtain ⟨k, v⟩ := kv
    by_cases hk : k = id
    · subst hk
      simp [lookupMsg] at h
      simp [setMsg, h]
    · simp [lookupMsg, hk] at h
      simp [setMsg, hk, ih h]

theorem removeMsg_setMsg (m : List (MessageID × MessageState))
    (id : MessageID) (ms : MessageState) :
    removeMsg (setMsg m id ms) id = removeMsg m id := by
  induction m with
  | nil => simp [setMsg, removeMsg]
  | cons kv rest ih =>
    obtain ⟨k, v⟩ := kv
    by_cases hk : k = id
    · simp [setMsg, removeMsg, hk]
    · simp [setMsg, removeMsg, hk, ih]

theorem removeMsg_not_mem {m : List (MessageID × MessageState)}
    {id : MessageID} (h : lookupMsg m id = none) : removeMsg m id = m := by
  induction m with
  | nil => rfl
  | cons kv rest ih =>
    obtain ⟨k, v⟩ := kv
    by_cases hk : k = id
    · simp [lookupMsg, hk] at h
    · simp [lookupMsg, hk] at h
      simp [removeMsg, hk, ih h]

theorem lookupMsg_setMsg_ne (m : List (MessageID × MessageState))
    {id id' : MessageID} (ms : MessageState) (h : id ≠ id') :
    lookupMsg (setMsg m id ms) id' = lookupMsg m id' := by
  induction m with
  | nil => simp [setMsg, lookupMsg, h]
  | cons kv rest ih =>
    obtain ⟨k, v⟩ := kv
    by_cases hk : k = id
    · subst hk
      simp [setMsg, lookupMsg, h]
    · simp [setMsg, lookupMsg, hk, ih]

/-! ## Parsing a well-formed fragment buffer -/

theorem drop_length_append (l1 l2 : List α) : (l1 ++ l2).drop l1.length = l2 := by
  simp

theorem take_length_append (l1 l2 : List α) : (l1 ++ l2).take l1.length = l1 := by
  simp

theorem mkFrag_parse {id : MessageID} {seq total : Nat} {payload : List Nat}
    (hid : id.length = 8) :
    CHUNKED_MAGIC_BYTES.isPrefixOf (mkFrag id seq total payload) = true ∧
    (mkFrag id seq total payload).length = 12 + payload.length ∧
    ((mkFrag id seq total payload).drop 2).take 8 = id ∧
    readU8 (mkFrag id seq total payload) 10 = seq ∧
    readU8 (mkFrag id seq total payload) 11 = total ∧
    (mkFrag id seq total payload).drop 12 = payload := by
  have hdrop8 : (id ++ seq :: total :: payload).drop 8 = seq :: total :: payload := by
    rw [← hid, drop_length_append]
  refine ⟨?_, ?_, ?_, ?_, ?_, ?_⟩
  · simp [CHUNKED_MAGIC_BYTES, mkFrag, List.isPrefixOf]
  · simp [mkFrag, hid]
    omega
  · show (id ++ seq :: total :: payload).take 8 = id
    rw [← hid, take_length_append]
  · show ((id ++ seq :: total :: payload).drop 8).headD 0 = seq
    rw [hdrop8]
    rfl
  · show ((id ++ seq :: total :: payload).drop 9).headD 0 = total
    have h9 : (id ++ seq :: total :: payload).drop 9
        = ((id ++ seq :: total :: payload).drop 8).drop 1 := by
      rw [List.drop_drop]
    rw [h9, hdrop8]
    rfl
  · show (id ++ seq :: total :: payload).drop 10 = payload
    have h10 : (id ++ seq :: total :: payload).drop 10
        = ((id ++ seq :: total :: payload).drop 8).drop 2 := by
      rw [List.drop_drop]
    rw [h10, hdrop8]
    rfl

/-! ## `on_data` branch lemmas -/

theorem on_data_not_chunked {st : GELFState} {now : Nat} {data : List Nat}
    (h : CHUNKED_MAGIC_BYTES.isPrefixOf data = false) :
    st.on_data now data = (st, data_to_str data) := by
  unfold GELFState.on_data
  simp [h]

theorem on_data_short {st : GELFState} {now : Nat} {data : List Nat}
    (hpre : CHUNKED_MAGIC_BYTES.isPrefixOf data = true) (hlen : data.length < 12) :
    st.on_data now data = (st, .error (.invalidHeader data.length)) := by
  unfold GELFState.on_data
  simp [hpre, hlen]

theorem on_data_total0 {st : GELFState} {now : Nat} {data : List Nat}
    (hpre : CHUNKED_MAGIC_BYTES.isPrefixOf data = true)
    (hlen : ¬ data.length < 12) (h0 : readU8 data 11 = 0) :
    st.on_data now data = (st, .error .totalSeqZero) := by
  unfold GELFState.on_data
  simp [hpre, hlen, h0]

theorem on_data_total1 {st : GELFState} {now : Nat} {data : List Nat}
    (hpre : CHUNKED_MAGIC_BYTES.isPrefixOf data = true)
    (hlen : ¬ data.length < 12) (h1 : readU8 data 11 = 1) :
    st.on_data now data = (st, data_to_str (data.drop 12)) := by
  unfold GELFState.on_data
  simp [hpre, hlen, h1]

theorem on_data_chunked {st : GELFState} {now : Nat} {data : List Nat}
    (hpre : CHUNKED_MAGIC_BYTES.isPrefixOf data = true)
    (hlen : ¬ data.length < 12) (ht2 : 2 ≤ readU8 data 11) :
    st.on_data now data =
      (let id := (data.drop 2).take 8
       let ms := (lookupMsg st.messages id).getD
         { first_arrived := now, total_seq := readU8 data 11, sorted_chunks := [] }
       let r := ms.try_merge (readU8 data 10) (data.drop 12)
       match r.2 with
       | .ok (some s) =>
         ({ messages := removeMsg (setMsg st.messages id r.1) id }, .ok (some s))
       | other => ({ messages := setMsg st.messages id r.1 }, other)) := by
  have h0 : ¬ (readU8 data 11 = 0) := by omega
  have h1 : ¬ (readU8 data 11 = 1) := by omega
  unfold GELFState.on_data
  simp [hpre, hlen, h0, h1]

theorem on_data_frag {st : GELFState} {now : Nat} {id : MessageID}
    {seq total : Nat} {payload : List Nat} (hid : id.length = 8) (h2 : 2 ≤ total) :
    st.on_data now (mkFrag id seq total payload) =
      (let ms := (lookupMsg st.messages id).getD
         { first_arrived := now, total_seq := total, sorted_chunks := [] }
       let r := ms.try_merge seq payload
       match r.2 with
       | .ok (some s) =>
         ({ messages := removeMsg (setMsg st.messages id r.1) id }, .ok (some s))
       | other => ({ messages := setMsg st.messages id r.1 }, other)) := by
  obtain ⟨hpre, hlen, hid', hseq, htot, hpay⟩ :=
    @mkFrag_parse id seq total payload hid
  rw [on_data_chunked hpre (by omega) (by rw [htot]; omega)]
  rw [hid', hseq, htot, hpay]

/-! ## Multi-fragment reassembly, end to end -/

theorem setMsg_setMsg (m : List (MessageID × MessageState)) (id : MessageID)
    (v v' : MessageState) : setMsg (setMsg m id v) id v' = setMsg m id v' := by
  induction m with
  | nil => simp [setMsg]
  | cons kv rest ih =>
    obtain ⟨k, w⟩ := kv
    by_cases hk : k = id
    · simp [setMsg, hk]
    · simp [setMsg, hk, ih]

/-- Invariant linking the engine state to the set `p` of already-merged
sequence numbers of the message `id` (payloads given by `f`). -/
def MergedInv (st0 : GELFState) (id : MessageID) (now n : Nat)
    (f : Nat → List Nat) (p : List Nat) (st : GELFState) : Prop :=
  ∃ ms : MessageState,
    st.messages = setMsg st0.messages id ms ∧
    ms.total_seq = n ∧ ChunksWF ms.sorted_chunks ∧ DataOK f ms.sorted_chunks ∧
    (∀ s, Covers ms.sorted_chunks s ↔ s ∈ p)

/-- Merging a fresh fragment while some other fragment is still missing:
"need more data", and the state absorbs exactly `seq`. -/
theorem merge_step_incomplete {ms : MessageState} {n seq : Nat}
    {f : Nat → List Nat} {p : List Nat}
    (htot : ms.total_seq = n) (hwf : ChunksWF ms.sorted_chunks)
    (hok : DataOK f ms.sorted_chunks)
    (hcov : ∀ s, Covers ms.sorted_chunks s ↔ s ∈ p)
    (hseqnotin : seq ∉ p)
    (hmissing : ∃ t, t < n ∧ t ∉ p ∧ t ≠ seq) :
    ∃ ms', ms.try_merge seq (f seq) = (ms', .ok none) ∧
      ms'.total_seq = n ∧ ms'.first_arrived = ms.first_arrived ∧
      ChunksWF ms'.sorted_chunks ∧ DataOK f ms'.sorted_chunks ∧
      (∀ s, Covers ms'.sorted_chunks s ↔ s ∈ seq :: p) := by
  have hnc : ¬ Covers ms.sorted_chunks seq := fun h => hseqnotin ((hcov seq).1 h)
  cases hs : searchChunks ms.sorted_chunks seq with
  | inl i => exact absurd ((hcov seq).1 (search_inl_covers hs)) hseqnotin
  | inr i =>
    obtain ⟨hwf', hcovs', hne', hdata', hbnd'⟩ := merge_props (d := f seq) hwf hnc hs
    have hfd : ¬ (hasFullData ms.total_seq
        (insertChunk ms.sorted_chunks i seq (f seq)) = true) := by
      intro h
      obtain ⟨t, htn, htp, hts⟩ := hmissing
      have hcovt := covers_of_full hwf' h t (by omega)
      rcases (hcovs' t).1 hcovt with hc | hc
      · exact htp ((hcov t).1 hc)
      · exact hts hc
    rw [try_merge_of_inr hs, if_neg hfd]
    refine ⟨_, rfl, htot, rfl, hwf', hdata' f hok rfl, ?_⟩
    intro s
    show Covers (insertChunk ms.sorted_chunks i seq (f seq)) s ↔ s ∈ seq :: p
    rw [hcovs' s, hcov s]
    simp [List.mem_cons]
    tauto

/-- Merging the last missing fragment: the state completes, is cleared, and
the returned buffer is the in-order concatenation of all payloads. -/
theorem merge_step_complete {ms : MessageState} {n seq : Nat}
    {f : Nat → List Nat} {p : List Nat}
    (hn : 2 ≤ n)
    (htot : ms.total_seq = n) (hwf : ChunksWF ms.sorted_chunks)
    (hok : DataOK f ms.sorted_chunks)
    (hcov : ∀ s, Covers ms.sorted_chunks s ↔ s ∈ p)
    (hseqnotin : seq ∉ p)
    (hplt : ∀ s ∈ p, s < n) (hseqlt : seq < n)
    (hcomplete : ∀ t, t < n → t ∈ p ∨ t = seq) :
    ms.try_merge seq (f seq)
      = ({ ms with sorted_chunks := [] },
         data_to_str (((List.range n).map f).flatten)) := by
  have hnc : ¬ Covers ms.sorted_chunks seq := fun h => hseqnotin ((hcov seq).1 h)
  cases hs : searchChunks ms.sorted_chunks seq with
  | inl i => exact absurd ((hcov seq).1 (search_inl_covers hs)) hseqnotin
  | inr i =>
    obtain ⟨hwf', hcovs', hne', hdata', hbnd'⟩ := merge_props (d := f seq) hwf hnc hs
    have hokcs' : DataOK f (insertChunk ms.sorted_chunks i seq (f seq)) :=
      hdata' f hok rfl
    have hbound : ∀ s, Covers (insertChunk ms.sorted_chunks i seq (f seq)) s → s < n := by
      intro s h
      rcases (hcovs' s).1 h with hc | rfl
      · exact hplt s ((hcov s).1 hc)
      · exact hseqlt
    have hcovfull : ∀ s, s < n → Covers (insertChunk ms.sorted_chunks i seq (f seq)) s := by
      intro s hsn
      rcases hcomplete s hsn with hc | rfl
      · exact (hcovs' s).2 (Or.inl ((hcov s).2 hc))
      · exact (hcovs' s).2 (Or.inr rfl)
    match hcs' : insertChunk ms.sorted_chunks i seq (f seq), hwf', hokcs', hne' with
    | c :: rest, hwf', hokcs', _ =>
      have hbound' : ∀ s, Covers (c :: rest) s → s < n := by rw [← hcs']; exact hbound
      have hcovfull' : ∀ s, s < n → Covers (c :: rest) s := by rw [← hcs']; exact hcovfull
      have hfd : hasFullData n (c :: rest) = true :=
        full_of_covers hwf' (by omega) hbound' (fun s hs => hcovfull' s hs)
      obtain ⟨hlast, hstart, hcont⟩ := hasFullData_cons.1 hfd
      have hasm : assembled (c :: rest) = ((List.range n).map f).flatten := by
        rw [assembled_spec f rest c hwf' hcont hokcs', hstart, hlast]
        have hr : n - 1 + 1 - 0 = n := by omega
        rw [hr]
        congr 1
        apply List.map_congr_left
        intro k _
        simp
      rw [try_merge_of_inr hs, hcs', if_pos (by rw [htot]; exact hfd), hasm]

theorem gelf_step_incomplete {st0 st : GELFState} {id : MessageID}
    {now n seq : Nat} {f : Nat → List Nat} {p : List Nat}
    (hid : id.length = 8) (hn : 2 ≤ n)
    (h0 : lookupMsg st0.messages id = none)
    (hinv : (p = [] ∧ st = st0) ∨ MergedInv st0 id now n f p st)
    (hseqnotin : seq ∉ p)
    (hmissing : ∃ t, t < n ∧ t ∉ p ∧ t ≠ seq) :
    (st.on_data now (mkFrag id seq n (f seq))).2 = .ok none ∧
    MergedInv st0 id now n f (seq :: p)
      (st.on_data now (mkFrag id seq n (f seq))).1 := by
  rcases hinv with ⟨rfl, rfl⟩ | ⟨ms, hmsgs, htot, hwf, hok, hcov⟩
  · have hfresh : (lookupMsg st.messages id).getD
        (⟨now, n, []⟩ : MessageState) = (⟨now, n, []⟩ : MessageState) := by
      rw [h0]; rfl
    obtain ⟨ms', hmerge, htot', _, hwf', hok', hcov'⟩ :=
      merge_step_incomplete
        (show (⟨now, n, []⟩ : MessageState).total_seq = n from rfl)
        (show ChunksWF (⟨now, n, []⟩ : MessageState).sorted_chunks from
          ⟨List.chain'_nil, fun c hc => absurd hc (List.not_mem_nil c)⟩)
        (show DataOK f (⟨now, n, []⟩ : MessageState).sorted_chunks from
          fun c hc => absurd hc (List.not_mem_nil c))
        (show ∀ s, Covers (⟨now, n, []⟩ : MessageState).sorted_chunks s
            ↔ s ∈ ([] : List Nat) from fun s => by
          rw [show (⟨now, n, []⟩ : MessageState).sorted_chunks
            = [] from rfl, covers_nil]; simp)
        hseqnotin hmissing
    rw [on_data_frag hid hn]
    simp only [hfresh, hmerge]
    exact ⟨trivial, ms', rfl, htot', hwf', hok', hcov'⟩
  · have hL : lookupMsg st.messages id = some ms := by
      rw [hmsgs, lookupMsg_setMsg_self]
    obtain ⟨ms', hmerge, htot', _, hwf', hok', hcov'⟩ :=
      merge_step_incomplete htot hwf hok hcov hseqnotin hmissing
    rw [on_data_frag hid hn]
    simp only [hL, Option.getD_some, hmerge]
    refine ⟨trivial, ms', ?_, htot', hwf', hok', hcov'⟩
    show setMsg st.messages id ms' = setMsg st0.messages id ms'
    rw [hmsgs, setMsg_setMsg]

theorem gelf_step_complete {st0 st : GELFState} {id : MessageID}
    {now n seq : Nat} {f : Nat → List Nat} {p : List Nat}
    (hid : id.length = 8) (hn : 2 ≤ n)
    (hinv : MergedInv st0 id now n f p st)
    (hseqnotin : seq ∉ p) (hplt : ∀ s ∈ p, s < n) (hseqlt : seq < n)
    (hcomplete : ∀ t, t < n → t ∈ p ∨ t = seq) :
    (st.on_data now (mkFrag id seq n (f seq))).2
      = data_to_str (((List.range n).map f).flatten) := by
  obtain ⟨ms, hmsgs, htot, hwf, hok, hcov⟩ := hinv
  have hL : lookupMsg st.messages id = some ms := by
    rw [hmsgs, lookupMsg_setMsg_self]
  have hmerge := merge_step_complete hn htot hwf hok hcov hseqnotin hplt hseqlt hcomplete
  rw [on_data_frag hid hn]
  simp only [hL, Option.getD_some, hmerge]
  by_cases hv : validUtf8 (((List.range n).map f).flatten) = true
  · simp [data_to_str, hv]
  · simp [data_to_str, hv]

/-- Deliver any interleaving-free sequence of distinct fragments that
together exactly cover `[0, n)`: every call but the last reports "need more
data", the last returns the decode of the full concatenation. -/
theorem ingest_run {st0 : GELFState} {id : MessageID} {now n : Nat}
    {f : Nat → List Nat}
    (hid : id.length = 8) (hn : 2 ≤ n)
    (h0 : lookupMsg st0.messages id = none) :
    ∀ (r p : List Nat) (st : GELFState),
    ((p = [] ∧ st = st0) ∨ MergedInv st0 id now n f p st) →
    r ≠ [] → (p ++ r).Nodup → (∀ s, s ∈ p ++ r ↔ s ∈ List.range n) →
    (ingestAll st now (r.map (fun s => mkFrag id s n (f s)))).2
      = List.replicate (r.length - 1) (Except.ok none)
        ++ [data_to_str (((List.range n).map f).flatten)] := by
  intro r
  induction r with
  | nil => intro p st _ hne; exact absurd rfl hne
  | cons seq r' ih =>
    intro p st hinv _ hnd hmem
    have hdisj : ∀ t ∈ seq :: r', t ∉ p := by
      intro t ht hp
      exact (List.disjoint_of_nodup_append hnd) hp ht
    have hseqnotin : seq ∉ p := hdisj seq (by simp)
    have hr'lt : ∀ t ∈ r', t < n :=
      fun t ht => List.mem_range.1 ((hmem t).1 (by simp [ht]))
    have hplt : ∀ s ∈ p, s < n :=
      fun s hs => List.mem_range.1 ((hmem s).1 (by simp [hs]))
    have hseqlt : seq < n := List.mem_range.1 ((hmem seq).1 (by simp))
    have hndtl : (p ++ seq :: r').Nodup := hnd
    cases r' with
    | nil =>
      -- the completing call
      have hcomplete : ∀ t, t < n → t ∈ p ∨ t = seq := by
        intro t ht
        have := (hmem t).2 (List.mem_range.2 ht)
        rcases List.mem_append.1 this with h | h
        · exact Or.inl h
        · rcases List.mem_cons.1 h with rfl | h
          · exact Or.inr rfl
          · cases h
      have hinv' : MergedInv st0 id now n f p st := by
        rcases hinv with ⟨rfl, rfl⟩ | h
        · exfalso
          rcases hcomplete 0 (by omega) with h | rfl
          · cases h
          · rcases hcomplete 1 (by omega) with h | h
            · cases h
            · omega
        · exact h
      have hfinal := gelf_step_complete hid hn hinv' hseqnotin hplt hseqlt hcomplete
      simp [ingestAll, hfinal]
    | cons t2 r'' =>
      have hmissing : ∃ t, t < n ∧ t ∉ p ∧ t ≠ seq := by
        refine ⟨t2, hr'lt t2 (by simp), hdisj t2 (by simp), ?_⟩
        intro h
        subst h
        have : ¬ (t2 :: t2 :: r'').Nodup := by simp
        exact this (hndtl.of_append_right)
      obtain ⟨hres, hinv'⟩ := gelf_step_incomplete hid hn h0 hinv hseqnotin hmissing
      have hperm : ((seq :: p) ++ (t2 :: r'')).Nodup := by
        have hp : (p ++ seq :: t2 :: r'').Perm (seq :: (p ++ t2 :: r'')) :=
          List.perm_middle
        exact (hp.nodup_iff).1 hnd
      have hmem' : ∀ s, s ∈ (seq :: p) ++ (t2 :: r'') ↔ s ∈ List.range n := by
        intro s
        rw [← hmem s]
        simp [List.mem_append, List.mem_cons]
        tauto
      have hrec := ih (seq :: p) _ (Or.inr hinv') (by simp) hperm hmem'
      show (ingestAll st now ((mkFrag id seq n (f seq)) ::
        (t2 :: r'').map (fun s => mkFrag id s n (f s)))).2 = _
      rw [show (ingestAll st now ((mkFrag id seq n (f seq)) ::
          (t2 :: r'').map (fun s => mkFrag id s n (f s)))).2
        = (st.on_data now (mkFrag id seq n (f seq))).2 ::
          (ingestAll (st.on_data now (mkFrag id seq n (f seq))).1 now
            ((t2 :: r'').map (fun s => mkFrag id s n (f s)))).2 from rfl]
      rw [hres, hrec]
      simp [List.replicate_succ]

/-- C1: for every multi-fragment message (`total_chunks = n ≥ 2`) whose
fragments carry distinct sequence numbers exactly covering `[0, n)` and whose
in-order payload concatenation is valid UTF-8, delivering the fragments in
any permutation across separate `on_data` calls (no intervening eviction)
makes exactly one call — the last one, completing the final missing sequence
number — return a message, byte-identical to the in-sequence-order
concatenation of the payloads, regardless of arrival order. -/
theorem gelf_order_independence
    (st0 : GELFState) (now n : Nat) (id : MessageID) (f : Nat → List Nat)
    (seqs : List Nat)
    (hid : id.length = 8) (hn : 2 ≤ n)
    (h0 : lookupMsg st0.messages id = none)
    (hperm : seqs.Perm (List.range n))
    (hvalid : validUtf8 (((List.range n).map f).flatten) = true) :
    (ingestAll st0 now (seqs.map (fun s => mkFrag id s n (f s)))).2
      = List.replicate (n - 1) (Except.ok none)
        ++ [Except.ok (some (((List.range n).map f).flatten))] := by
  have hlen : seqs.length = n := by
    have h := hperm.length_eq
    simpa using h
  have hne : seqs ≠ [] := by
    intro h
    rw [h] at hlen
    simp at hlen
    omega
  have hnd : (([] : List Nat) ++ seqs).Nodup := by
    simp only [List.nil_append]
    exact (hperm.nodup_iff).2 (List.nodup_range n)
  have hmem : ∀ s, s ∈ ([] : List Nat) ++ seqs ↔ s ∈ List.range n := by
    intro s
    simp [hperm.mem_iff]
  have hrun := @ingest_run st0 id now n f hid hn h0 seqs [] st0
    (Or.inl ⟨rfl, rfl⟩) hne hnd hmem
  rw [hrun, hlen]
  congr 1
  simp [data_to_str, hvalid]

theorem gelf_order_independence_witness :
    ([2, 0, 1] : List Nat).Perm (List.range 3) ∧
    (ingestAll ⟨[]⟩ 0 (([2, 0, 1] : List Nat).map
        (fun s => mkFrag [0, 0, 0, 0, 0, 0, 0, 0] s 3
          ((fun t => if t = 0 then [49, 50, 51]
            else if t = 1 then [52, 53, 54] else [55, 56, 57]) s)))).2
      = List.replicate 2 (Except.ok none)
        ++ [Except.ok (some (((List.range 3).map
            (fun t => if t = 0 then [49, 50, 51]
              else if t = 1 then [52, 53, 54] else [55, 56, 57])).flatten))] :=
  ⟨by decide,
   gelf_order_independence ⟨[]⟩ 0 3 [0, 0, 0, 0, 0, 0, 0, 0]
     (fun t => if t = 0 then [49, 50, 51]
       else if t = 1 then [52, 53, 54] else [55, 56, 57])
     [2, 0, 1] (by decide) (by decide) rfl (by decide) (by decide)⟩

/-! ## The global invariant on reachable states -/

/-- Well-formedness of one partial message state on reachable engine states:
the declared total is in `[2, 255]`, the run list is well-formed, and all run
boundaries are byte-sized. -/
def MsWF (ms : MessageState) : Prop :=
  2 ≤ ms.total_seq ∧ ms.total_seq ≤ 255 ∧ ChunksWF ms.sorted_chunks ∧
  ∀ c ∈ ms.sorted_chunks, c.stop ≤ 255

def StateWF (st : GELFState) : Prop := ∀ kv ∈ st.messages, MsWF kv.2

theorem lookupMsg_mem : ∀ {m : List (MessageID × MessageState)} {id : MessageID}
    {ms : MessageState}, lookupMsg m id = some ms → (id, ms) ∈ m := by
  intro m
  induction m with
  | nil => intro id ms h; simp [lookupMsg] at h
  | cons kv rest ih =>
    intro id ms h
    obtain ⟨k, v⟩ := kv
    by_cases hk : k = id
    · subst hk
      simp [lookupMsg] at h
      subst h
      simp
    · simp [lookupMsg, hk] at h
      exact List.mem_cons_of_mem _ (ih h)

theorem mem_setMsg : ∀ {m : List (MessageID × MessageState)} {id : MessageID}
    {ms : MessageState} {kv : MessageID × MessageState},
    kv ∈ setMsg m id ms → kv = (id, ms) ∨ kv ∈ m := by
  intro m
  induction m with
  | nil => intro id ms kv h; simp [setMsg] at h; exact Or.inl h
  | cons kv0 rest ih =>
    intro id ms kv h
    obtain ⟨k, v⟩ := kv0
    by_cases hk : k = id
    · simp [setMsg, hk] at h
      rcases h with h | h
      · exact Or.inl (by simp [h])
      · exact Or.inr (List.mem_cons_of_mem _ h)
    · simp [setMsg, hk] at h
      rcases h with h | h
      · exact Or.inr (by simp [h])
      · rcases ih h with h' | h'
        · exact Or.inl h'
        · exact Or.inr (List.mem_cons_of_mem _ h')

theorem mem_removeMsg : ∀ {m : List (MessageID × MessageState)} {id : MessageID}
    {kv : MessageID × MessageState}, kv ∈ removeMsg m id → kv ∈ m := by
  intro m
  induction m with
  | nil => intro id kv h; simp [removeMsg] at h
  | cons kv0 rest ih =>
    intro id kv h
    obtain ⟨k, v⟩ := kv0
    by_cases hk : k = id
    · simp [removeMsg, hk] at h
      exact List.mem_cons_of_mem _ h
    · simp [removeMsg, hk] at h
      rcases h with h | h
      · simp [h]
      · exact List.mem_cons_of_mem _ (ih h)

theorem readU8_lt {data : List Nat} {i : Nat}
    (hbytes : ∀ b ∈ data, b < 256) (hlen : i < data.length) :
    readU8 data i < 256 := by
  unfold readU8
  cases hd : data.drop i with
  | nil =>
    have := List.length_drop i data
    rw [hd] at this
    simp at this
    omega
  | cons b rest =>
    have hb : b ∈ data := by
      refine List.drop_subset i data ?_
      rw [hd]
      simp
    exact hbytes b hb

theorem not_covers_of_inr {cs : List MergeChunk} {seq i : Nat}
    (hwf : ChunksWF cs) (hs : searchChunks cs seq = .inr i) :
    ¬ Covers cs seq := by
  intro hcov
  rcases search_inl_of_covers hwf hcov with ⟨j, hj⟩
  rw [hs] at hj
  cases hj

/-- `on_data` preserves the global well-formedness invariant (inputs are byte
buffers). -/
theorem on_data_preserves_wf {st : GELFState} {now : Nat} {data : List Nat}
    (hbytes : ∀ b ∈ data, b < 256) (hwf : StateWF st) :
    StateWF (st.on_data now data).1 := by
  cases hpre : CHUNKED_MAGIC_BYTES.isPrefixOf data with
  | false => rw [on_data_not_chunked hpre]; exact hwf
  | true =>
    by_cases hlen : data.length < 12
    · rw [on_data_short hpre hlen]; exact hwf
    · rcases Nat.lt_or_ge (readU8 data 11) 2 with h2 | h2
      · interval_cases h : readU8 data 11
        · rw [on_data_total0 hpre hlen h]; exact hwf
        · rw [on_data_total1 hpre hlen h]; exact hwf
      · rw [on_data_chunked hpre hlen h2]
        have hseqlt : readU8 data 10 ≤ 255 := by
          have := readU8_lt hbytes (show 10 < data.length by omega)
          omega
        have htotlt : readU8 data 11 ≤ 255 := by
          have := readU8_lt hbytes (show 11 < data.length by omega)
          omega
        set id : MessageID := (data.drop 2).take 8 with hdefid
        set ms : MessageState := (lookupMsg st.messages id).getD
          { first_arrived := now, total_seq := readU8 data 11,
            sorted_chunks := [] } with hdefms
        have hmswf : MsWF ms := by
          cases hL : lookupMsg st.messages id with
          | none =>
            rw [hdefms, hL]
            exact ⟨h2, htotlt, ⟨List.chain'_nil, fun c hc => absurd hc
              (List.not_mem_nil c)⟩, fun c hc => absurd hc (List.not_mem_nil c)⟩
          | some m =>
            rw [hdefms, hL]
            exact hwf (id, m) (lookupMsg_mem hL)
        have hnext : MsWF (ms.try_merge (readU8 data 10) (data.drop 12)).1 := by
          obtain ⟨hm2, hm255, hmcs, hmstop⟩ := hmswf
          cases hs : searchChunks ms.sorted_chunks (readU8 data 10) with
          | inl j =>
            rw [try_merge_of_inl hs]
            exact ⟨hm2, hm255, hmcs, hmstop⟩
          | inr j =>
            obtain ⟨hwf', _, _, _, hbnd'⟩ :=
              merge_props (d := data.drop 12) hmcs (not_covers_of_inr hmcs hs) hs
            rw [try_merge_of_inr hs]
            by_cases hfd : hasFullData ms.total_seq
                (insertChunk ms.sorted_chunks j (readU8 data 10) (data.drop 12)) = true
            · rw [if_pos hfd]
              exact ⟨hm2, hm255, ⟨List.chain'_nil, fun c hc => absurd hc
                (List.not_mem_nil c)⟩, fun c hc => absurd hc (List.not_mem_nil c)⟩
            · rw [if_neg hfd]
              exact ⟨hm2, hm255, hwf', hbnd' 255 hmstop hseqlt⟩
        cases hr : (ms.try_merge (readU8 data 10) (data.drop 12)).2 with
        | ok o =>
          cases o with
          | some s =>
            simp only [hr]
            intro kv hkv
            rcases mem_setMsg (mem_removeMsg hkv) with rfl | hkv'
            · exact hnext
            · exact hwf kv hkv'
          | none =>
            simp only [hr]
            intro kv hkv
            rcases mem_setMsg hkv with rfl | hkv'
            · exact hnext
            · exact hwf kv hkv'
        | error e =>
          simp only [hr]
          intro kv hkv
          rcases mem_setMsg hkv with rfl | hkv'
          · exact hnext
          · exact hwf kv hkv'

theorem clean_up_preserves_wf {st : GELFState} {now : Nat} (hwf : StateWF st) :
    StateWF (st.clean_up now) := by
  intro kv hkv
  exact hwf kv (List.mem_of_mem_filter hkv)

/-- Every reachable engine state satisfies the global invariant. -/
theorem reachable_wf {st : GELFState} (h : Reachable st) : StateWF st := by
  induction h with
  | init => intro kv hkv; cases hkv
  | step st now data hbytes _ ih => exact on_data_preserves_wf hbytes ih
  | evict st now _ ih => exact clean_up_preserves_wf ih

theorem search_inr_prev_lt : ∀ {cs : List MergeChunk} {seq i : Nat},
    searchChunks cs seq = .inr i → 0 < i →
    ∀ c, getAt? cs (i - 1) = some c → c.stop < seq := by
  intro cs
  induction cs with
  | nil =>
    intro seq i hs hi c hc
    simp only [searchChunks] at hs
    cases hs
    omega
  | cons c0 rest ih =>
    intro seq i hs hi c hc
    by_cases hgt : c0.start > seq
    · simp only [searchChunks, compare_chunk, if_pos hgt] at hs
      cases hs
      omega
    · by_cases hlt : c0.stop < seq
      · simp only [searchChunks, compare_chunk, if_neg hgt, if_pos hlt] at hs
        cases hrec : searchChunks rest seq with
        | inl j => rw [hrec] at hs; cases hs
        | inr j =>
          rw [hrec] at hs
          cases hs
          match hj : j, hc with
          | 0, hc =>
            have : c = c0 := by
              rw [show (0 + 1 - 1 : Nat) = 0 from rfl] at hc
              simpa [getAt?] using hc.symm
            rw [this]
            exact hlt
          | k + 1, hc =>
            refine ih hrec (by omega) c ?_
            rw [show (k + 1 + 1 - 1 : Nat) = k + 1 from rfl] at hc
            simpa [getAt?] using hc
      · simp only [searchChunks, compare_chunk, if_neg hgt, if_neg hlt] at hs
        cases hs

/-- C2 counterexample: delivering sequence numbers 2 then 1 (of a 4-fragment
message) yields a reachable state whose run list holds the adjacent,
uncoalesced runs `[1,1]` and `[2,2]`: the following run's `start` is exactly
`a.end + 1`, not at least `a.end + 2` as claimed. -/
theorem gelf_adjacent_runs_counterexample :
    Reachable ((GELFState.on_data (GELFState.on_data ⟨[]⟩ 0
        (mkFrag [0, 0, 0, 0, 0, 0, 0, 0] 2 4 [97])).1 0
        (mkFrag [0, 0, 0, 0, 0, 0, 0, 0] 1 4 [98])).1) ∧
    ((GELFState.on_data (GELFState.on_data ⟨[]⟩ 0
        (mkFrag [0, 0, 0, 0, 0, 0, 0, 0] 2 4 [97])).1 0
        (mkFrag [0, 0, 0, 0, 0, 0, 0, 0] 1 4 [98])).1).messages
      = [([0, 0, 0, 0, 0, 0, 0, 0],
          ⟨0, 4, [⟨1, 1, [98]⟩, ⟨2, 2, [97]⟩]⟩)] ∧
    ¬ ((2 : Nat) ≥ 1 + 2) := by
  refine ⟨?_, by decide, by decide⟩
  exact Reachable.step _ 0 _ (by decide)
    (Reachable.step _ 0 _ (by decide) Reachable.init)

/-- C2 (amended): in every reachable Partial Message State the run list is
sorted by `start`, pairwise disjoint, and strictly separated: for adjacent
runs `a` then `b`, `b.start ≥ a.end + 1`.  (Adjacent runs with
`b.start = a.end + 1` can persist, because coalescing only extends the run
immediately before the insertion point; the claimed gap `b.start ≥ a.end + 2`
does not hold.) -/
theorem gelf_run_invariant {st : GELFState} (h : Reachable st) :
    ∀ kv ∈ st.messages,
      List.Chain' (fun a b => a.stop < b.start) kv.2.sorted_chunks ∧
      List.Pairwise (fun a b => a.stop < b.start) kv.2.sorted_chunks ∧
      (∀ c ∈ kv.2.sorted_chunks, c.start ≤ c.stop) := by
  intro kv hkv
  obtain ⟨_, _, hcs, _⟩ := reachable_wf h kv hkv
  exact ⟨hcs.1, wf_pairwise hcs, hcs.2⟩

theorem gelf_run_invariant_witness :
    List.Chain' (fun a b => a.stop < b.start)
      (([0, 0, 0, 0, 0, 0, 0, 0],
        (⟨0, 4, [⟨1, 1, [98]⟩, ⟨2, 2, [97]⟩]⟩ : MessageState))
          : MessageID × MessageState).2.sorted_chunks :=
  (gelf_run_invariant
    (Reachable.step _ 0 (mkFrag [0, 0, 0, 0, 0, 0, 0, 0] 1 4 [98]) (by decide)
      (Reachable.step _ 0 (mkFrag [0, 0, 0, 0, 0, 0, 0, 0] 2 4 [97]) (by decide)
        Reachable.init))
    ([0, 0, 0, 0, 0, 0, 0, 0], ⟨0, 4, [⟨1, 1, [98]⟩, ⟨2, 2, [97]⟩]⟩)
    (by decide)).1

/-- C9: on every reachable state the single-byte arithmetic of the merge and
completion path stays in range: `total_seq - 1` cannot underflow
(`total_seq ≥ 1`, in fact `≥ 2`) and `total_seq ≤ 255`; every run satisfies
`start ≤ stop ≤ 255` (so `start - prev.end` in the continuity check cannot
underflow, consecutive runs having `a.stop ≤ b.start`); and at the extension
site the run just before the insertion point has `stop < seq ≤ 255`, so
`end + 1` stays `≤ 255`. -/
theorem gelf_no_overflow {st : GELFState} (h : Reachable st) :
    ∀ kv ∈ st.messages,
      (1 ≤ kv.2.total_seq ∧ kv.2.total_seq ≤ 255) ∧
      (∀ c ∈ kv.2.sorted_chunks, c.start ≤ c.stop ∧ c.stop ≤ 255) ∧
      List.Chain' (fun a b => a.stop ≤ b.start) kv.2.sorted_chunks ∧
      (∀ seq i c, seq ≤ 255 →
        searchChunks kv.2.sorted_chunks seq = .inr i → 0 < i →
        getAt? kv.2.sorted_chunks (i - 1) = some c →
        c.stop + 1 ≤ 255 ∧ c.stop + 1 ≤ seq) := by
  intro kv hkv
  obtain ⟨h2, h255, hcs, hstop⟩ := reachable_wf h kv hkv
  refine ⟨⟨by omega, h255⟩, fun c hc => ⟨hcs.2 c hc, hstop c hc⟩, ?_, ?_⟩
  · exact hcs.1.imp (fun a b hab => le_of_lt hab)
  · intro seq i c hseq hs hi hc
    have := search_inr_prev_lt hs hi c hc
    omega

theorem gelf_no_overflow_witness :
    1 ≤ (([0, 0, 0, 0, 0, 0, 0, 0],
        (⟨0, 4, [⟨1, 1, [98]⟩, ⟨2, 2, [97]⟩]⟩ : MessageState))
          : MessageID × MessageState).2.total_seq ∧
    (([0, 0, 0, 0, 0, 0, 0, 0],
        (⟨0, 4, [⟨1, 1, [98]⟩, ⟨2, 2, [97]⟩]⟩ : MessageState))
          : MessageID × MessageState).2.total_seq ≤ 255 :=
  (gelf_no_overflow
    (Reachable.step _ 0 (mkFrag [0, 0, 0, 0, 0, 0, 0, 0] 1 4 [98]) (by decide)
      (Reachable.step _ 0 (mkFrag [0, 0, 0, 0, 0, 0, 0, 0] 2 4 [97]) (by decide)
        Reachable.init))
    ([0, 0, 0, 0, 0, 0, 0, 0], ⟨0, 4, [⟨1, 1, [98]⟩, ⟨2, 2, [97]⟩]⟩)
    (by decide)).1

/-! ## Decode failure after completion -/

theorem try_merge_error_state {ms : MessageState} {seq : Nat} {d : List Nat}
    {e : GelfError} (h : (ms.try_merge seq d).2 = .error e) :
    (ms.try_merge seq d).1 = ⟨ms.first_arrived, ms.total_seq, []⟩ := by
  cases hs : searchChunks ms.sorted_chunks seq with
  | inl i =>
    rw [try_merge_of_inl hs] at h
    simp at h
  | inr i =>
    rw [try_merge_of_inr hs] at h ⊢
    by_cases hfd : hasFullData ms.total_seq (insertChunk ms.sorted_chunks i seq d) = true
    · rw [if_pos hfd]
    · rw [if_neg hfd] at h
      simp at h

theorem try_merge_error_utf8 {ms : MessageState} {seq : Nat} {d : List Nat}
    {e : GelfError} (h : (ms.try_merge seq d).2 = .error e) : e = .utf8Error := by
  cases hs : searchChunks ms.sorted_chunks seq with
  | inl i =>
    rw [try_merge_of_inl hs] at h
    simp at h
  | inr i =>
    rw [try_merge_of_inr hs] at h
    by_cases hfd : hasFullData ms.total_seq (insertChunk ms.sorted_chunks i seq d) = true
    · rw [if_pos hfd] at h
      by_cases hv : validUtf8 (assembled (insertChunk ms.sorted_chunks i seq d)) = true
      · simp [data_to_str, hv] at h
      · simp [data_to_str, hv] at h
        exact h.symm
    · rw [if_neg hfd] at h
      simp at h

/-- C3 counterexample: completing a two-fragment message whose assembly is
the invalid byte `0xFF` returns a decode error, but the Reassembly Index
still contains an entry for the identifier (with an emptied run list) — the
claim that the index no longer contains an entry is false. -/
theorem gelf_decode_failure_counterexample :
    ((GELFState.on_data ⟨[]⟩ 0 (mkFrag [0, 0, 0, 0, 0, 0, 0, 0] 0 2 [255])).1.on_data 0
        (mkFrag [0, 0, 0, 0, 0, 0, 0, 0] 1 2 [])).2 = .error .utf8Error ∧
    lookupMsg ((GELFState.on_data ⟨[]⟩ 0
        (mkFrag [0, 0, 0, 0, 0, 0, 0, 0] 0 2 [255])).1.on_data 0
        (mkFrag [0, 0, 0, 0, 0, 0, 0, 0] 1 2 [])).1.messages [0, 0, 0, 0, 0, 0, 0, 0]
      = some ⟨0, 2, []⟩ := by
  decide

/-- C3 (amended): if an ingest call completes a multi-fragment message but
the assembled bytes are not valid UTF-8, the call returns a decode error and
the message's run list has been cleared (the malformed bytes are not
retried), but the Reassembly Index still contains an entry for the
identifier — an empty-run state with the original arrival instant and total
count — until eviction removes it. -/
theorem gelf_decode_failure_keeps_entry
    (st : GELFState) (now : Nat) (id : MessageID) (seq total : Nat)
    (payload : List Nat) (ms : MessageState)
    (hid : id.length = 8) (h2 : 2 ≤ total)
    (hL : lookupMsg st.messages id = some ms)
    (herr : (ms.try_merge seq payload).2 = .error .utf8Error) :
    st.on_data now (mkFrag id seq total payload)
      = (⟨setMsg st.messages id ⟨ms.first_arrived, ms.total_seq, []⟩⟩,
         .error .utf8Error) ∧
    lookupMsg (st.on_data now (mkFrag id seq total payload)).1.messages id
      = some ⟨ms.first_arrived, ms.total_seq, []⟩ := by
  have h1 : st.on_data now (mkFrag id seq total payload)
      = (⟨setMsg st.messages id ⟨ms.first_arrived, ms.total_seq, []⟩⟩,
         .error .utf8Error) := by
    rw [on_data_frag hid h2]
    simp only [hL, Option.getD_some, herr]
    rw [try_merge_error_state herr]
  refine ⟨h1, ?_⟩
  rw [h1]
  exact lookupMsg_setMsg_self _ _ _

theorem gelf_decode_failure_keeps_entry_witness :
    GELFState.on_data
        ⟨[([0, 0, 0, 0, 0, 0, 0, 0], ⟨0, 2, [⟨0, 0, [255]⟩]⟩)]⟩ 7
        (mkFrag [0, 0, 0, 0, 0, 0, 0, 0] 1 2 [])
      = (⟨[([0, 0, 0, 0, 0, 0, 0, 0], ⟨0, 2, []⟩)]⟩, .error .utf8Error) :=
  (gelf_decode_failure_keeps_entry
    ⟨[([0, 0, 0, 0, 0, 0, 0, 0], ⟨0, 2, [⟨0, 0, [255]⟩]⟩)]⟩ 7
    [0, 0, 0, 0, 0, 0, 0, 0] 1 2 [] ⟨0, 2, [⟨0, 0, [255]⟩]⟩
    (by decide) (by decide) (by decide) (by decide)).1

/-- C4: while a sequence number in `[0, total_seq)` of a tracked message is
still missing (and is not the one this call delivers), any well-formed
fragment routed to the merger for that identifier yields "need more data":
the completion test cannot succeed with a gap in the declared range. -/
theorem gelf_gap_persistence
    (st : GELFState) (now : Nat) (id : MessageID) (seq total : Nat)
    (payload : List Nat) (ms : MessageState)
    (hid : id.length = 8) (h2 : 2 ≤ total)
    (hL : lookupMsg st.messages id = some ms)
    (hwf : ChunksWF ms.sorted_chunks)
    (hmiss : ∃ t, t < ms.total_seq ∧ ¬ Covers ms.sorted_chunks t ∧ t ≠ seq) :
    (st.on_data now (mkFrag id seq total payload)).2 = .ok none := by
  rw [on_data_frag hid h2]
  by_cases hcov : Covers ms.sorted_chunks seq
  · have hm := @try_merge_dup ms seq payload hwf hcov
    simp only [hL, Option.getD_some, hm]
  · cases hs : searchChunks ms.sorted_chunks seq with
    | inl j => exact absurd (search_inl_covers hs) hcov
    | inr j =>
      obtain ⟨hwf', hcovs', _, _, _⟩ := merge_props (d := payload) hwf hcov hs
      obtain ⟨t, htlt, htnc, htne⟩ := hmiss
      have hfd : ¬ (hasFullData ms.total_seq
          (insertChunk ms.sorted_chunks j seq payload) = true) := by
        intro hfull
        have := covers_of_full hwf' hfull t htlt
        rcases (hcovs' t).1 this with hc | hc
        · exact htnc hc
        · exact htne hc
      have hm := @try_merge_of_inr ms seq j payload hs
      rw [if_neg hfd] at hm
      simp only [hL, Option.getD_some, hm]

theorem gelf_gap_persistence_witness :
    ((⟨[([0, 0, 0, 0, 0, 0, 0, 0], ⟨0, 3, [⟨0, 0, [49]⟩]⟩)]⟩ : GELFState).on_data 5
        (mkFrag [0, 0, 0, 0, 0, 0, 0, 0] 1 3 [50])).2 = .ok none :=
  gelf_gap_persistence ⟨[([0, 0, 0, 0, 0, 0, 0, 0], ⟨0, 3, [⟨0, 0, [49]⟩]⟩)]⟩ 5
    [0, 0, 0, 0, 0, 0, 0, 0] 1 3 [50] ⟨0, 3, [⟨0, 0, [49]⟩]⟩
    (by decide) (by decide) (by decide) ⟨List.chain'_singleton _, by decide⟩
    ⟨2, by decide, by decide, by decide⟩

/-! ## Eviction -/

theorem lookupMsg_none_of_not_key : ∀ {m : List (MessageID × MessageState)}
    {id : MessageID}, id ∉ m.map Prod.fst → lookupMsg m id = none := by
  intro m
  induction m with
  | nil => intro id _; rfl
  | cons kv rest ih =>
    intro id h
    obtain ⟨k, v⟩ := kv
    rw [List.map_cons, List.mem_cons] at h
    push_neg at h
    rw [lookupMsg, if_neg (fun hh => h.1 hh.symm)]
    exact ih h.2

theorem lookupMsg_filter_none (q : MessageID × MessageState → Bool) :
    ∀ {m : List (MessageID × MessageState)} {id : MessageID},
    lookupMsg m id = none → lookupMsg (m.filter q) id = none := by
  intro m
  induction m with
  | nil => intro id _; rfl
  | cons kv rest ih =>
    intro id h
    obtain ⟨k, v⟩ := kv
    rw [lookupMsg] at h
    by_cases hk : k = id
    · rw [if_pos hk] at h; cases h
    · rw [if_neg hk] at h
      by_cases hq : q (k, v)
      · rw [List.filter_cons_of_pos hq, lookupMsg, if_neg hk]
        exact ih h
      · rw [List.filter_cons_of_neg hq]
        exact ih h

theorem lookupMsg_filter (q : MessageID × MessageState → Bool) :
    ∀ {m : List (MessageID × MessageState)}, (m.map Prod.fst).Nodup →
    ∀ id, lookupMsg (m.filter q) id
      = match lookupMsg m id with
        | some ms => if q (id, ms) then some ms else none
        | none => none := by
  intro m
  induction m with
  | nil => intro _ id; rfl
  | cons kv rest ih =>
    intro hnd id
    obtain ⟨k, v⟩ := kv
    have hnd' : k ∉ rest.map Prod.fst ∧ (rest.map Prod.fst).Nodup := by
      rw [List.map_cons, List.nodup_cons] at hnd
      exact hnd
    have hcons : lookupMsg ((k, v) :: rest) k = some v := by
      rw [lookupMsg, if_pos rfl]
    by_cases hk : k = id
    · subst hk
      by_cases hq : q (k, v)
      · rw [List.filter_cons_of_pos hq, lookupMsg, if_pos rfl, hcons]
        simp [hq]
      · rw [List.filter_cons_of_neg hq,
          lookupMsg_filter_none q (lookupMsg_none_of_not_key hnd'.1), hcons]
        simp [hq]
    · have hcons' : lookupMsg ((k, v) :: rest) id = lookupMsg rest id := by
        rw [lookupMsg, if_neg hk]
      by_cases hq : q (k, v)
      · rw [List.filter_cons_of_pos hq, lookupMsg, if_neg hk, ih hnd'.2 id, hcons']
      · rw [List.filter_cons_of_neg hq, ih hnd'.2 id, hcons']

/-- A fragment for an identifier absent from the index creates a brand-new
Partial Message State holding exactly that fragment. -/
theorem on_data_fresh {st : GELFState} {now : Nat} {id : MessageID}
    {seq total : Nat} {payload : List Nat}
    (hid : id.length = 8) (h2 : 2 ≤ total)
    (h0 : lookupMsg st.messages id = none) :
    st.on_data now (mkFrag id seq total payload)
      = (⟨setMsg st.messages id ⟨now, total, [⟨seq, seq, payload⟩]⟩⟩, .ok none) := by
  rw [on_data_frag hid h2]
  have hfresh : (lookupMsg st.messages id).getD
      (⟨now, total, []⟩ : MessageState) = ⟨now, total, []⟩ := by
    rw [h0]; rfl
  have hs : searchChunks ([] : List MergeChunk) seq = .inr 0 := rfl
  have hm := @try_merge_of_inr ⟨now, total, []⟩ seq 0 payload hs
  have hins : insertChunk ([] : List MergeChunk) 0 seq payload
      = [⟨seq, seq, payload⟩] := rfl
  have hfd : hasFullData total [(⟨seq, seq, payload⟩ : MergeChunk)] = false := by
    simp [hasFullData, lastStop, are_chunks_continuous]
    omega
  rw [hins] at hm
  rw [show (⟨now, total, []⟩ : MessageState).total_seq = total from rfl] at hm
  rw [if_neg (by rw [hfd]; exact Bool.false_ne_true)] at hm
  simp only [hfresh, hm]

/-- C5 counterexample: a Partial Message State aged exactly 120 seconds — not
strictly older than the threshold — is nevertheless removed by `clean_up`,
so "every state aged at most 120 seconds is retained" is false. -/
theorem gelf_evict_boundary_counterexample :
    (GELFState.clean_up ⟨[([0, 0, 0, 0, 0, 0, 0, 0], ⟨0, 2, []⟩)]⟩ 120).messages
      = [] ∧
    (120 : Nat) - 0 ≤ MAX_CHUNKED_MESSAGE_DURATION := by
  decide

/-- C5 (amended): `evict` is a total function that removes exactly the
Partial Message States whose age `now - first_arrived` is at least 120
seconds: a state is retained (unchanged) iff its age is strictly below 120.
A fragment arriving afterwards for an evicted identifier starts a brand-new
message containing only that fragment — previous fragments are not
resurrected. -/
theorem gelf_evict_spec (st : GELFState) (now : Nat)
    (hkeys : (st.messages.map Prod.fst).Nodup) :
    (∀ id, lookupMsg (st.clean_up now).messages id
        = match lookupMsg st.messages id with
          | some ms => if now - ms.first_arrived < MAX_CHUNKED_MESSAGE_DURATION
                       then some ms else none
          | none => none) ∧
    (∀ id seq total payload now', id.length = 8 → 2 ≤ total →
      lookupMsg (st.clean_up now).messages id = none →
      (st.clean_up now).on_data now' (mkFrag id seq total payload)
        = (⟨setMsg (st.clean_up now).messages id
            ⟨now', total, [⟨seq, seq, payload⟩]⟩⟩, .ok none)) := by
  constructor
  · intro id
    have hcl : (st.clean_up now).messages
        = st.messages.filter (fun kv =>
            decide (now - kv.2.first_arrived < MAX_CHUNKED_MESSAGE_DURATION)) := rfl
    rw [hcl, lookupMsg_filter _ hkeys id]
    cases lookupMsg st.messages id with
    | none => rfl
    | some ms => simp
  · intro id seq total payload now' hid h2 h0
    exact on_data_fresh hid h2 h0

theorem gelf_evict_spec_witness :
    lookupMsg (GELFState.clean_up
        ⟨[([0, 0, 0, 0, 0, 0, 0, 0], ⟨0, 2, []⟩)]⟩ 120).messages
      [0, 0, 0, 0, 0, 0, 0, 0] = none :=
  (gelf_evict_spec ⟨[([0, 0, 0, 0, 0, 0, 0, 0], ⟨0, 2, []⟩)]⟩ 120
    (by decide)).1 [0, 0, 0, 0, 0, 0, 0, 0]

/-- C6: a buffer with the magic marker, at least 12 bytes, declaring
`total_chunks = 1`, is decoded straight from its payload slice (bytes 12
onward) and returned by the same call when valid UTF-8; the Reassembly Index
is neither read nor written — the state is identical before and after. -/
theorem gelf_single_fragment_fast_path
    (st : GELFState) (now : Nat) (data : List Nat)
    (hpre : CHUNKED_MAGIC_BYTES.isPrefixOf data = true)
    (hlen : 12 ≤ data.length)
    (h1 : readU8 data 11 = 1) :
    st.on_data now data = (st, data_to_str (data.drop 12)) ∧
    (validUtf8 (data.drop 12) = true →
      (st.on_data now data).2 = .ok (some (data.drop 12))) := by
  have h := @on_data_total1 st now data hpre (by omega) h1
  refine ⟨h, fun hv => ?_⟩
  rw [h]
  simp [data_to_str, hv]

theorem gelf_single_fragment_fast_path_witness :
    GELFState.on_data ⟨[]⟩ 0 (mkFrag [0, 0, 0, 0, 0, 0, 0, 0] 0 1 [104, 105])
      = (⟨[]⟩, Except.ok (some [104, 105])) := by
  rw [(gelf_single_fragment_fast_path ⟨[]⟩ 0
    (mkFrag [0, 0, 0, 0, 0, 0, 0, 0] 0 1 [104, 105])
    (by decide) (by decide) (by decide)).1]
  decide

/-- C8: re-delivering a fragment whose sequence number is already covered by
one of the message's runs returns "need more data" and leaves the entire
engine state literally unchanged — index, run list, boundaries, buffered
bytes, arrival instant and total count included. -/
theorem gelf_duplicate_idempotent
    (st : GELFState) (now : Nat) (id : MessageID) (seq total : Nat)
    (payload : List Nat) (ms : MessageState)
    (hid : id.length = 8) (h2 : 2 ≤ total)
    (hL : lookupMsg st.messages id = some ms)
    (hwf : ChunksWF ms.sorted_chunks)
    (hcov : Covers ms.sorted_chunks seq) :
    st.on_data now (mkFrag id seq total payload) = (st, .ok none) := by
  rw [on_data_frag hid h2]
  have hm := @try_merge_dup ms seq payload hwf hcov
  simp only [hL, Option.getD_some, hm]
  rw [setMsg_lookup_eq hL]

theorem gelf_duplicate_idempotent_witness :
    GELFState.on_data ⟨[([0, 0, 0, 0, 0, 0, 0, 0], ⟨0, 3, [⟨0, 1, [49, 50]⟩]⟩)]⟩ 9
        (mkFrag [0, 0, 0, 0, 0, 0, 0, 0] 1 3 [99])
      = (⟨[([0, 0, 0, 0, 0, 0, 0, 0], ⟨0, 3, [⟨0, 1, [49, 50]⟩]⟩)]⟩, .ok none) :=
  gelf_duplicate_idempotent
    ⟨[([0, 0, 0, 0, 0, 0, 0, 0], ⟨0, 3, [⟨0, 1, [49, 50]⟩]⟩)]⟩ 9
    [0, 0, 0, 0, 0, 0, 0, 0] 1 3 [99] ⟨0, 3, [⟨0, 1, [49, 50]⟩]⟩
    (by decide) (by decide) (by decide) ⟨List.chain'_singleton _, by decide⟩
    (by decide)

/-- C10: a well-formed fragment whose sequence number is at least the
first-seen total is not rejected — it is stored as a run and the call reports
"need more data" — and once any covered sequence number reaches or exceeds
the total, the message can never complete: every further merger-routed call
returns "need more data" and preserves that out-of-range coverage, until
eviction discards the state. -/
theorem gelf_overrange_poison
    (st : GELFState) (now : Nat) (id : MessageID) (seq total : Nat)
    (payload : List Nat) (ms : MessageState)
    (hid : id.length = 8) (h2 : 2 ≤ total)
    (hL : lookupMsg st.messages id = some ms)
    (hwf : ChunksWF ms.sorted_chunks)
    (hms2 : 2 ≤ ms.total_seq) :
    (ms.total_seq ≤ seq → ¬ Covers ms.sorted_chunks seq →
      (st.on_data now (mkFrag id seq total payload)).2 = .ok none ∧
      ∃ ms', lookupMsg (st.on_data now (mkFrag id seq total payload)).1.messages id
          = some ms' ∧ ChunksWF ms'.sorted_chunks ∧
        ms'.total_seq = ms.total_seq ∧ Covers ms'.sorted_chunks seq) ∧
    ((∃ s, ms.total_seq ≤ s ∧ Covers ms.sorted_chunks s) →
      (st.on_data now (mkFrag id seq total payload)).2 = .ok none ∧
      ∃ ms', lookupMsg (st.on_data now (mkFrag id seq total payload)).1.messages id
          = some ms' ∧ ChunksWF ms'.sorted_chunks ∧
        ms'.total_seq = ms.total_seq ∧
        ∃ s, ms.total_seq ≤ s ∧ Covers ms'.sorted_chunks s) := by
  constructor
  · intro hover hnc
    rw [on_data_frag hid h2]
    cases hs : searchChunks ms.sorted_chunks seq with
    | inl j => exact absurd (search_inl_covers hs) hnc
    | inr j =>
      obtain ⟨hwf', hcovs', _, _, _⟩ := merge_props (d := payload) hwf hnc hs
      have hcovseq : Covers (insertChunk ms.sorted_chunks j seq payload) seq :=
        (hcovs' seq).2 (Or.inr rfl)
      have hfd : ¬ (hasFullData ms.total_seq
          (insertChunk ms.sorted_chunks j seq payload) = true) := by
        rw [not_full_of_over hwf' hcovseq (by omega)]
        exact Bool.false_ne_true
      have hm := @try_merge_of_inr ms seq j payload hs
      rw [if_neg hfd] at hm
      simp only [hL, Option.getD_some, hm]
      refine ⟨trivial, ⟨ms.first_arrived, ms.total_seq,
        insertChunk ms.sorted_chunks j seq payload⟩,
        lookupMsg_setMsg_self _ _ _, hwf', rfl, hcovseq⟩
  · rintro ⟨s0, hs0, hcov0⟩
    rw [on_data_frag hid h2]
    by_cases hcovseq : Covers ms.sorted_chunks seq
    · have hm := @try_merge_dup ms seq payload hwf hcovseq
      simp only [hL, Option.getD_some, hm]
      exact ⟨trivial, ms, lookupMsg_setMsg_self _ _ _, hwf, rfl, s0, hs0, hcov0⟩
    · cases hs : searchChunks ms.sorted_chunks seq with
      | inl j => exact absurd (search_inl_covers hs) hcovseq
      | inr j =>
        obtain ⟨hwf', hcovs', _, _, _⟩ := merge_props (d := payload) hwf hcovseq hs
        have hcov0' : Covers (insertChunk ms.sorted_chunks j seq payload) s0 :=
          (hcovs' s0).2 (Or.inl hcov0)
        have hfd : ¬ (hasFullData ms.total_seq
            (insertChunk ms.sorted_chunks j seq payload) = true) := by
          rw [not_full_of_over hwf' hcov0' (by omega)]
          exact Bool.false_ne_true
        have hm := @try_merge_of_inr ms seq j payload hs
        rw [if_neg hfd] at hm
        simp only [hL, Option.getD_some, hm]
        exact ⟨trivial, ⟨ms.first_arrived, ms.total_seq,
          insertChunk ms.sorted_chunks j seq payload⟩,
          lookupMsg_setMsg_self _ _ _, hwf', rfl, s0, hs0, hcov0'⟩

theorem gelf_overrange_poison_witness :
    ((⟨[([0, 0, 0, 0, 0, 0, 0, 0], ⟨0, 2, [⟨0, 0, [49]⟩]⟩)]⟩ : GELFState).on_data 4
        (mkFrag [0, 0, 0, 0, 0, 0, 0, 0] 5 2 [50])).2 = .ok none ∧
    ∃ ms', lookupMsg ((⟨[([0, 0, 0, 0, 0, 0, 0, 0],
          ⟨0, 2, [⟨0, 0, [49]⟩]⟩)]⟩ : GELFState).on_data 4
        (mkFrag [0, 0, 0, 0, 0, 0, 0, 0] 5 2 [50])).1.messages [0, 0, 0, 0, 0, 0, 0, 0]
        = some ms' ∧ ChunksWF ms'.sorted_chunks ∧
      ms'.total_seq = (⟨0, 2, [⟨0, 0, [49]⟩]⟩ : MessageState).total_seq ∧
      Covers ms'.sorted_chunks 5 :=
  (gelf_overrange_poison
    ⟨[([0, 0, 0, 0, 0, 0, 0, 0], ⟨0, 2, [⟨0, 0, [49]⟩]⟩)]⟩ 4
    [0, 0, 0, 0, 0, 0, 0, 0] 5 2 [50] ⟨0, 2, [⟨0, 0, [49]⟩]⟩
    (by decide) (by decide) (by decide) ⟨List.chain'_singleton _, by decide⟩
    (by decide)).1 (by decide) (by decide)

/-! ## Error taxonomy -/

theorem on_data_chunked_result {st : GELFState} {now : Nat} {data : List Nat}
    (hpre : CHUNKED_MAGIC_BYTES.isPrefixOf data = true)
    (hlen : ¬ data.length < 12) (h2 : 2 ≤ readU8 data 11) :
    (st.on_data now data).2
      = (((lookupMsg st.messages ((data.drop 2).take 8)).getD
          ⟨now, readU8 data 11, []⟩).try_merge (readU8 data 10)
          (data.drop 12)).2 := by
  rw [on_data_chunked hpre hlen h2]
  cases hr : (((lookupMsg st.messages ((data.drop 2).take 8)).getD
      (⟨now, readU8 data 11, []⟩ : MessageState)).try_merge (readU8 data 10)
      (data.drop 12)).2 with
  | ok o => cases o <;> simp [hr]
  | error e => simp [hr]

theorem try_merge_error_iff (ms : MessageState) (seq : Nat) (d : List Nat) :
    (ms.try_merge seq d).2 = .error .utf8Error ↔
      ∃ i, searchChunks ms.sorted_chunks seq = .inr i ∧
        hasFullData ms.total_seq (insertChunk ms.sorted_chunks i seq d) = true ∧
        validUtf8 (assembled (insertChunk ms.sorted_chunks i seq d)) = false := by
  cases hs : searchChunks ms.sorted_chunks seq with
  | inl i =>
    rw [try_merge_of_inl hs]
    constructor
    · intro h; cases h
    · rintro ⟨i', hi', _⟩
      cases hi'
  | inr i =>
    rw [try_merge_of_inr hs]
    by_cases hfd : hasFullData ms.total_seq (insertChunk ms.sorted_chunks i seq d) = true
    · rw [if_pos hfd]
      cases hv : validUtf8 (assembled (insertChunk ms.sorted_chunks i seq d)) with
      | true =>
        apply iff_of_false
        · intro h
          simp [data_to_str, hv] at h
        · rintro ⟨i', hi', _, hv'⟩
          have hii : i = i' := Sum.inr.inj hi'
          subst hii
          rw [hv] at hv'
          cases hv'
      | false =>
        apply iff_of_true
        · show data_to_str (assembled (insertChunk ms.sorted_chunks i seq d))
            = .error .utf8Error
          rw [data_to_str, if_neg (by rw [hv]; exact Bool.false_ne_true)]
        · exact ⟨i, rfl, hfd, hv⟩
    · rw [if_neg hfd]
      constructor
      · intro h; cases h
      · rintro ⟨i', hi', hfd', _⟩
        have hii : i = i' := Sum.inr.inj hi'
        subst hii
        exact absurd hfd' hfd

/-- C7: `ingest` returns an error exactly when the buffer is a chunked-marked
buffer shorter than 12 bytes, a chunked-marked buffer declaring zero total
fragments, or the final byte sequence presented for decoding — an unchunked
buffer, a single-fragment payload, or a completed multi-fragment assembly —
is not valid UTF-8.  The two header errors leave the engine state unchanged,
and a merger-routed fragment errors only when the merge completed and the
assembly failed to decode (duplicates and out-of-order fragments never
error). -/
theorem gelf_error_taxonomy (st : GELFState) (now : Nat) (data : List Nat) :
    ((∃ e, (st.on_data now data).2 = .error e) ↔
      ((CHUNKED_MAGIC_BYTES.isPrefixOf data = true ∧ data.length < 12) ∨
       (CHUNKED_MAGIC_BYTES.isPrefixOf data = true ∧ 12 ≤ data.length ∧
         readU8 data 11 = 0) ∨
       (CHUNKED_MAGIC_BYTES.isPrefixOf data = false ∧ validUtf8 data = false) ∨
       (CHUNKED_MAGIC_BYTES.isPrefixOf data = true ∧ 12 ≤ data.length ∧
         readU8 data 11 = 1 ∧ validUtf8 (data.drop 12) = false) ∨
       (CHUNKED_MAGIC_BYTES.isPrefixOf data = true ∧ 12 ≤ data.length ∧
         2 ≤ readU8 data 11 ∧
         (((lookupMsg st.messages ((data.drop 2).take 8)).getD
             ⟨now, readU8 data 11, []⟩).try_merge (readU8 data 10)
             (data.drop 12)).2 = .error .utf8Error))) ∧
    (CHUNKED_MAGIC_BYTES.isPrefixOf data = true → data.length < 12 →
      st.on_data now data = (st, .error (.invalidHeader data.length))) ∧
    (CHUNKED_MAGIC_BYTES.isPrefixOf data = true → 12 ≤ data.length →
      readU8 data 11 = 0 → st.on_data now data = (st, .error .totalSeqZero)) ∧
    (∀ (ms : MessageState) (seq : Nat) (d : List Nat),
      ((ms.try_merge seq d).2 = .error .utf8Error ↔
      ∃ i, searchChunks ms.sorted_chunks seq = .inr i ∧
        hasFullData ms.total_seq (insertChunk ms.sorted_chunks i seq d) = true ∧
        validUtf8 (assembled (insertChunk ms.sorted_chunks i seq d)) = false)) := by
  refine ⟨?_, ?_, ?_, fun ms seq d => try_merge_error_iff ms seq d⟩
  · cases hpre : CHUNKED_MAGIC_BYTES.isPrefixOf data with
    | false =>
      rw [on_data_not_chunked hpre]
      cases hv : validUtf8 data with
      | true =>
        apply iff_of_false
        · rintro ⟨e, he⟩
          rw [show data_to_str data = .ok (some data) from by
            rw [data_to_str, if_pos hv]] at he
          cases he
        · rintro (⟨h, _⟩ | ⟨h, _⟩ | ⟨_, h⟩ | ⟨h, _⟩ | ⟨h, _⟩)
          · cases h
          · cases h
          · cases h
          · cases h
          · cases h
      | false =>
        apply iff_of_true
        · exact ⟨.utf8Error, by
            show data_to_str data = .error .utf8Error
            rw [data_to_str, if_neg (by rw [hv]; exact Bool.false_ne_true)]⟩
        · exact Or.inr (Or.inr (Or.inl ⟨rfl, rfl⟩))
    | true =>
      by_cases hlen : data.length < 12
      · apply iff_of_true
        · exact ⟨.invalidHeader data.length, by rw [on_data_short hpre hlen]⟩
        · exact Or.inl ⟨rfl, hlen⟩
      · by_cases h0 : readU8 data 11 = 0
        · apply iff_of_true
          · exact ⟨.totalSeqZero, by rw [on_data_total0 hpre hlen h0]⟩
          · exact Or.inr (Or.inl ⟨rfl, by omega, h0⟩)
        · by_cases h1 : readU8 data 11 = 1
          · rw [on_data_total1 hpre hlen h1]
            cases hv : validUtf8 (data.drop 12) with
            | true =>
              apply iff_of_false
              · rintro ⟨e, he⟩
                rw [show data_to_str (data.drop 12) = .ok (some (data.drop 12)) from by
                  rw [data_to_str, if_pos hv]] at he
                cases he
              · rintro (⟨_, h⟩ | ⟨_, _, h⟩ | ⟨h, _⟩ | ⟨_, _, _, h⟩ | ⟨_, _, h, _⟩)
                · omega
                · exact h0 h
                · cases h
                · cases h
                · omega
            | false =>
              apply iff_of_true
              · exact ⟨.utf8Error, by
                  show data_to_str (data.drop 12) = .error .utf8Error
                  rw [data_to_str, if_neg (by rw [hv]; exact Bool.false_ne_true)]⟩
              · exact Or.inr (Or.inr (Or.inr (Or.inl ⟨rfl, by omega, h1, rfl⟩)))
          · have h2 : 2 ≤ readU8 data 11 := by omega
            rw [on_data_chunked_result hpre hlen h2]
            cases hr : (((lookupMsg st.messages ((data.drop 2).take 8)).getD
                (⟨now, readU8 data 11, []⟩ : MessageState)).try_merge
                (readU8 data 10) (data.drop 12)).2 with
            | ok o =>
              apply iff_of_false
              · rintro ⟨e, he⟩; cases he
              · rintro (⟨_, h⟩ | ⟨_, _, h⟩ | ⟨h, _⟩ | ⟨_, _, h, _⟩ | ⟨_, _, _, h⟩)
                · omega
                · exact h0 h
                · cases h
                · exact h1 h
                · cases h
            | error e =>
              have he : e = .utf8Error := try_merge_error_utf8 hr
              subst he
              apply iff_of_true
              · exact ⟨.utf8Error, rfl⟩
              · exact Or.inr (Or.inr (Or.inr (Or.inr ⟨rfl, by omega, h2, rfl⟩)))
  · intro h hlen
    exact on_data_short h hlen
  · intro h hlen h0
    exact on_data_total0 h (by omega) h0

theorem gelf_error_taxonomy_witness :
    GELFState.on_data ⟨[]⟩ 0 [0x1e, 0x0f, 7]
      = (⟨[]⟩, .error (.invalidHeader 3)) :=
  (gelf_error_taxonomy ⟨[]⟩ 0 [0x1e, 0x0f, 7]).2.1 (by decide) (by decide)
